import Mathlib

/-!
A verification development for the `prin` traversal-and-filtering engine
(`src/prin/core.py`, `src/prin/filters.py`, `src/prin/types.py`,
`src/prin/defaults.py`, `src/prin/adapters/github.py`).

The Python code is shallowly embedded: paths are lists of POSIX segments,
byte strings are lists of naturals, the Python `set` of printed paths is a
list used as a set, the `while` loop of `DepthFirstPrinter.run` is a
fuel-indexed loop, and the calls into the Python standard library
(`fnmatch`, `str` methods, `os.path.relpath`, UTF-8 codecs) are
re-implemented over `List Char` / `List Nat` following their documented
semantics.  `ast.parse` is abstracted as a function parameter producing an
optional list of top-level statement shapes.
-/

namespace Prin

/-! ## Basic string helpers (Python `str` methods used by the engine) -/

/-- Case-insensitive sort key: Python `str.casefold`, restricted to the
ASCII case mapping used by this code base's file names. -/
def lowerList (s : List Char) : List Char := s.map Char.toLower

/-- Codepoint-wise lexicographic `≤` on char lists: Python string `<=`. -/
def leChars : List Char → List Char → Bool
  | [], _ => true
  | _ :: _, [] => false
  | a :: as, b :: bs =>
    if a.toNat < b.toNat then true
    else if b.toNat < a.toNat then false
    else leChars as bs

/-- Python `s.endswith(suffix)`. -/
def endsStr (s suffix : String) : Bool := List.isSuffixOf suffix.toList s.toList

/-- Python substring containment (`pat in s`) for char lists. -/
def infixOf (pat s : List Char) : Bool := decide (pat <:+: s)

/-- `types._is_glob`: a string is glob-flavored when it contains one of
`* ? ! [ ]`. -/
def is_glob (s : String) : Bool :=
  s.toList.any fun c => c = '*' || c = '?' || c = '!' || c = '[' || c = ']'

/-- `types._is_extension`: starts with `.` and contains no path separator
(`os.path.sep` is `/`).  `pattern.startswith(".")` is spelled on the
character list so that it evaluates by kernel reduction. -/
def is_extension (s : String) : Bool :=
  (match s.toList with
   | c :: _ => c = '.'
   | [] => false) && !(s.toList.contains '/')

/-- Python `pattern.removeprefix(".")`, spelled on the character list so
that it evaluates by kernel reduction. -/
def stripDot (s : String) : String :=
  match s.toList with
  | '.' :: rest => String.mk rest
  | _ => s

/-- Last `/`-separated component of a normalized POSIX path string:
`PurePosixPath(s).name` for the normalized paths produced by the engine
(the characters after the last slash). -/
def lastComponent (s : String) : String :=
  String.mk ((s.toList.reverse.takeWhile fun c => c ≠ '/').reverse)

/-- Index of the last `.` in a char list, if any. -/
def lastDotIdx (cs : List Char) : Option Nat :=
  ((cs.enum.filter fun p => p.2 = '.').getLast?).map (·.1)

/-- `PurePosixPath(name).stem` applied to a base name: drop the last
suffix, where a leading dot or a trailing dot does not open a suffix. -/
def pyStem (name : String) : String :=
  match lastDotIdx name.toList with
  | some i =>
    if 0 < i ∧ i < name.toList.length - 1 then String.mk (name.toList.take i)
    else name
  | none => name

/-! ## `fnmatch` (shell glob matching, POSIX `normcase` = identity)

Python's `fnmatch.fnmatch` translates the pattern into a regex: `*` matches
any (possibly empty) sequence of characters including `/` and newlines, `?`
matches exactly one character, `[...]` is a character set (`!` first
negates, `]` first is a literal member, an unterminated `[` is a literal
`[`).  A range `a-b` with `a > b` matches no character. -/

inductive SetItem where
  | one (c : Char)
  | range (lo hi : Char)
deriving DecidableEq

def itemMatches (c : Char) : SetItem → Bool
  | .one d => c = d
  | .range lo hi => lo.toNat ≤ c.toNat ∧ c.toNat ≤ hi.toNat

/-- Parse the body of a bracket set (after `[` and optional `!`), mirroring
how `fnmatch.translate` copies it into a regex character set. -/
def parseSetBody : List Char → List SetItem
  | a :: '-' :: b :: rest =>
    if b = ']' then SetItem.one a :: SetItem.one '-' :: parseSetBody (b :: rest)
    else SetItem.range a b :: parseSetBody rest
  | a :: rest => SetItem.one a :: parseSetBody rest
  | [] => []

/-- Scan for the closing `]` of a bracket set; the first character may be
`]` and is then a member.  Returns the set body and the remainder after
`]`, or `none` when the bracket is unterminated. -/
def splitBracket : List Char → Option (List Char × List Char)
  | [] => none
  | c :: rest =>
    if c = ']' then some ([], rest)
    else (splitBracket rest).map fun p => (c :: p.1, p.2)

/-- One bracket expression: after `[`, parse optional negation, a first
member that may be `]`, then members until `]`. -/
def parseBracket : List Char → Option (Bool × List SetItem × List Char)
  | '!' :: ']' :: rest =>
    (splitBracket rest).map fun p => (true, parseSetBody (']' :: p.1), p.2)
  | '!' :: rest =>
    (splitBracket rest).map fun p => (true, parseSetBody p.1, p.2)
  | ']' :: rest =>
    (splitBracket rest).map fun p => (false, parseSetBody (']' :: p.1), p.2)
  | rest =>
    (splitBracket rest).map fun p => (false, parseSetBody p.1, p.2)

theorem splitBracket_len : ∀ (l : List Char) (p), splitBracket l = some p →
    p.2.length < l.length := by
  intro l
  induction l with
  | nil => intro p h; simp [splitBracket] at h
  | cons c rest ih =>
    intro p h
    simp only [splitBracket] at h
    split at h
    · cases h; simp
    · cases hr : splitBracket rest with
      | none => rw [hr] at h; simp at h
      | some q =>
        rw [hr] at h
        simp only [Option.map_some'] at h
        cases h
        have := ih q hr
        simp
        omega

theorem parseBracket_len (ps : List Char) (neg : Bool) (items : List SetItem)
    (rest : List Char) (h : parseBracket ps = some (neg, items, rest)) :
    rest.length < ps.length := by
  unfold parseBracket at h
  split at h <;>
  · rw [Option.map_eq_some'] at h
    obtain ⟨p, hp, heq⟩ := h
    have hq := splitBracket_len _ p hp
    have hrest : rest = p.2 := by
      have := congrArg (fun t => t.2.2) heq
      simpa using this.symm
    subst hrest
    first
    | simp only [List.length_cons]; omega
    | omega

/-- The glob matcher: pattern against string, both as char lists.  In the
bracket case the remainder returned by `parseBracket` is always strictly
shorter than the bracket body (`parseBracket_len`); the inner `if` merely
exposes that bound to the termination checker and never takes its `else`
branch. -/
def globMatch : List Char → List Char → Bool
  | [], s => s.isEmpty
  | '*' :: ps, s =>
    globMatch ps s ||
      (match s with
       | [] => false
       | _ :: s' => globMatch ('*' :: ps) s')
  | '?' :: ps, s =>
    (match s with
     | [] => false
     | _ :: s' => globMatch ps s')
  | '[' :: ps, s =>
    (match parseBracket ps with
     | some (neg, items, rest) =>
       (match s with
        | [] => false
        | c :: s' => (items.any (itemMatches c) ≠ neg) &&
            globMatch (if rest.length ≤ ps.length then rest else ps) s')
     | none =>
       (match s with
        | '[' :: s' => globMatch ps s'
        | _ => false))
  | c :: ps, s =>
    (match s with
     | c' :: s' => c = c' && globMatch ps s'
     | [] => false)
termination_by p s => (p.length, s.length)
decreasing_by
  all_goals simp_arith [Prod.lex_def]
  split
  · rename_i hle
    exact Or.inl hle
  · exact Or.inl le_rfl

/-- Python `fnmatch.fnmatch(name, pattern)` on POSIX. -/
def fnmatch (name pattern : String) : Bool :=
  globMatch pattern.toList name.toList

/-! ## Exclusion rules (`types.TExclusion`, `filters.is_excluded`) -/

/-- An exclusion rule: a plain string (literal or glob pattern) or a
predicate (the lambdas of `defaults.DEFAULT_EXCLUSIONS`). -/
inductive Exclusion where
  | str (s : String)
  | pred (f : String → Bool)

/-- `filters.is_excluded(entry, exclude=...)` for a string entry.  `entry`
is the full path string `str(entry.path)`; the engine always passes
normalized `PurePosixPath` renderings, so `name`/`stem` are computed by
splitting on `/`. -/
def is_excluded (s : String) (exclude : List Exclusion) : Bool :=
  let name := lastComponent s
  let stem := pyStem name
  let entryIsGlob := is_glob s
  exclude.any fun ex =>
    match ex with
    | .pred f => f name || f stem || f s
    | .str e =>
      if entryIsGlob || is_glob e then
        fnmatch name e || fnmatch s e || fnmatch stem e
      else if name == e || s == e || stem == e ||
          (is_extension e && endsStr name e) then
        true
      else
        let g := if is_extension e then "*" ++ e else "*" ++ e ++ "*"
        fnmatch name g || fnmatch s g || fnmatch stem g

/-! ## Extension matching (`DepthFirstPrinter._extension_match`) -/

/-- Modelled from the spec: the constant `EXTENSIONLESS_SENTINEL` is
imported by `core.py` from `defaults.py` but its definition is absent from
the source tree; the spec describes it only as "a special sentinel
pattern" that "matches extensionless filenames".  It is modelled as a
fixed marker string that is not glob-flavored and not itself an
extension pattern. -/
def EXTENSIONLESS_SENTINEL : String := "<extensionless>"

/-- `DepthFirstPrinter._extension_match(filename)` for a given pattern
list: empty list matches everything; a glob-flavored pattern is
`fnmatch`ed against the bare filename; the sentinel matches names with no
dot; any other pattern requires the suffix `"." + pattern without its
leading dot`. -/
def extension_match (extensions : List String) (filename : String) : Bool :=
  if extensions.isEmpty then true
  else extensions.any fun pattern =>
    if is_glob pattern then
      fnmatch filename pattern
    else if pattern == EXTENSIONLESS_SENTINEL then
      !(filename.toList.contains '.')
    else
      endsStr filename ("." ++ stripDot pattern)

/-! ## The emptiness classifier (`core.is_text_semantically_empty`)

`ast.parse` is abstracted: a parse function produces `none` on a
`SyntaxError` and otherwise the list of top-level statement shapes, each
classified just finely enough for the checks the code performs. -/

/-- Shape of an assignment target (`ast.Name` vs anything else). -/
inductive PyTarget where
  | name (id : String)
  | otherTarget
deriving DecidableEq

/-- Shape of an expression-statement value (`ast.Constant` holding a `str`
vs anything else). -/
inductive PyExpr where
  | constStr (s : String)
  | otherExpr
deriving DecidableEq

/-- Shape of a top-level statement as inspected by the classifier. -/
inductive PyStmt where
  | importStmt
  | importFromStmt
  | assign (targets : List PyTarget)
  | exprStmt (value : PyExpr)
  | otherStmt
deriving DecidableEq

/-- The model of `ast.parse`: `none` on a syntax error. -/
def PyParse : Type := String → Option (List PyStmt)

/-- The per-statement test of the `for node in ast.iter_child_nodes` loop.
The source's `ast.Assign` branch guards its `continue` with a
single-`__all__`-target test, but that inner `if` has no `else`: when the
test fails, control falls off the end of the `elif` body and the loop
continues anyway, so every top-level assignment passes — the targets are
never decisive.  The trailing `else: return False` belongs to the outer
`isinstance` chain only. -/
def stmtIsBoilerplate : PyStmt → Bool
  | .importStmt => true
  | .importFromStmt => true
  | .assign _ => true
  | .exprStmt (.constStr _) => true
  | .exprStmt .otherExpr => false
  | .otherStmt => false

/-- Python `str.strip()` is empty: every character is whitespace.  Python
strips a slightly larger set than `Char.isWhitespace`; the vertical tab
and form feed are added to cover the ASCII range. -/
def stripIsEmpty (s : String) : Bool :=
  s.toList.all fun c => c.isWhitespace || c = Char.ofNat 11 || c = Char.ofNat 12

/-- `core.is_text_semantically_empty(text)`. -/
def is_text_semantically_empty (parse : PyParse) (text : String) : Bool :=
  if stripIsEmpty text then true
  else
    match parse text with
    | none => false
    | some stmts => stmts.all stmtIsBoilerplate

/-! ## Bytes, UTF-8 and text detection (`core._is_text_bytes`,
`core._decode_text`, `core.is_blob_semantically_empty`) -/

/-- Strict UTF-8 decoding of a byte list into codepoints; `none` mirrors
`UnicodeDecodeError` (overlong forms, surrogates and values beyond
U+10FFFF are rejected, as CPython's strict codec does). -/
def utf8Decode : List Nat → Option (List Nat)
  | [] => some []
  | b :: rest =>
    if b < 0x80 then
      (utf8Decode rest).map fun cps => b :: cps
    else if 0xC2 ≤ b ∧ b ≤ 0xDF then
      match rest with
      | c1 :: rest' =>
        if 0x80 ≤ c1 ∧ c1 ≤ 0xBF then
          (utf8Decode rest').map fun cps => ((b - 0xC0) * 64 + (c1 - 0x80)) :: cps
        else none
      | [] => none
    else if 0xE0 ≤ b ∧ b ≤ 0xEF then
      match rest with
      | c1 :: c2 :: rest' =>
        let lo1 := if b = 0xE0 then 0xA0 else 0x80
        let hi1 := if b = 0xED then 0x9F else 0xBF
        if (lo1 ≤ c1 ∧ c1 ≤ hi1) ∧ (0x80 ≤ c2 ∧ c2 ≤ 0xBF) then
          (utf8Decode rest').map fun cps =>
            ((b - 0xE0) * 4096 + (c1 - 0x80) * 64 + (c2 - 0x80)) :: cps
        else none
      | _ => none
    else if 0xF0 ≤ b ∧ b ≤ 0xF4 then
      match rest with
      | c1 :: c2 :: c3 :: rest' =>
        let lo1 := if b = 0xF0 then 0x90 else 0x80
        let hi1 := if b = 0xF4 then 0x8F else 0xBF
        if (lo1 ≤ c1 ∧ c1 ≤ hi1) ∧ (0x80 ≤ c2 ∧ c2 ≤ 0xBF) ∧
            (0x80 ≤ c3 ∧ c3 ≤ 0xBF) then
          (utf8Decode rest').map fun cps =>
            ((b - 0xF0) * 262144 + (c1 - 0x80) * 4096 + (c2 - 0x80) * 64 +
              (c3 - 0x80)) :: cps
        else none
      | _ => none
    else none

/-- `core._is_text_bytes(blob)`: empty is text, a NUL byte is binary,
otherwise text iff UTF-8 decodes. -/
def is_text_bytes (blob : List Nat) : Bool :=
  if blob.isEmpty then true
  else if blob.contains 0 then false
  else (utf8Decode blob).isSome

/-- `core._decode_text(blob)`: UTF-8, falling back to Latin-1 (which maps
each byte to the codepoint of the same value and never fails). -/
def decode_text (blob : List Nat) : String :=
  match utf8Decode blob with
  | some cps => String.mk (cps.map Char.ofNat)
  | none => String.mk (blob.map Char.ofNat)

/-- `core.is_blob_semantically_empty(blob)`. -/
def is_blob_semantically_empty (parse : PyParse) (blob : List Nat) : Bool :=
  if !is_text_bytes blob then false
  else is_text_semantically_empty parse (decode_text blob)

/-! ## The file budget (`core.FileBudget`) -/

/-- `FileBudget._remaining`: `none` means unlimited. -/
abbrev FileBudget : Type := Option Nat

/-- `FileBudget.__init__(max_files)`: only a positive `int` limits. -/
def FileBudget.make (max_files : Option Int) : FileBudget :=
  match max_files with
  | some m => if 0 < m then some m.toNat else none
  | none => none

/-- `FileBudget.spent()`. -/
def FileBudget.spent (b : FileBudget) : Bool :=
  match b with
  | some n => n == 0
  | none => false

/-- `FileBudget.available()`. -/
def FileBudget.available (b : FileBudget) : Bool :=
  match b with
  | some n => 0 < n
  | none => true

/-- `FileBudget.consume()`. -/
def FileBudget.consume (b : FileBudget) : FileBudget :=
  match b with
  | none => none
  | some 0 => some 0
  | some (n + 1) => some n

/-! ## The data model (`core.Entry`, `core.NodeKind`) and the filesystem

A source tree is a finite tree of named children; paths are segment
lists.  The filesystem `SourceAdapter` is derived from the tree:
`list_dir` fails with `NotADirectory` on a file (or other node) and with
`NotFound` on a missing path, `read_file_bytes` returns `[]` on any
failure, and `is_empty` applies the shared blob check. -/

inductive NodeKind where
  | directory
  | file
  | other
deriving DecidableEq

inductive FSNode where
  | file (content : List Nat)
  | dir (children : List (String × FSNode))
  | other
deriving Inhabited

structure Entry where
  path : List String
  name : String
  kind : NodeKind
deriving DecidableEq

/-- `"/".join(segments)`: `str(PurePosixPath(...))` for relative paths. -/
def joinPath (segs : List String) : String := String.intercalate "/" segs

/-- `PurePosixPath(p).name` for a segment path. -/
def pathName (p : List String) : String := (p.getLast?).getD ""

/-- First child with the given name (filesystem name resolution). -/
def assocChild (cs : List (String × FSNode)) (n : String) : Option FSNode :=
  match cs with
  | [] => none
  | (m, c) :: rest => if m = n then some c else assocChild rest n

/-- Resolve a segment path inside a tree. -/
def lookup : FSNode → List String → Option FSNode
  | t, [] => some t
  | .dir cs, n :: rest =>
    match assocChild cs n with
    | some c => lookup c rest
    | none => none
  | _, _ :: _ => none

/-- Result of `list_dir`: entries, `NotADirectoryError`, or
`FileNotFoundError`. -/
inductive ListDirResult where
  | entries (es : List Entry)
  | notADirectory
  | notFound

def kindOf : FSNode → NodeKind
  | .file _ => .file
  | .dir _ => .directory
  | .other => .other

/-- The entries of a directory node at path `p`. -/
def childEntries (p : List String) (cs : List (String × FSNode)) : List Entry :=
  cs.map fun nc => ⟨p ++ [nc.1], nc.1, kindOf nc.2⟩

/-- `FileSystemSource.list_dir` over the tree model. -/
def listDir (tree : FSNode) (p : List String) : ListDirResult :=
  match lookup tree p with
  | none => .notFound
  | some (.file _) => .notADirectory
  | some .other => .notADirectory
  | some (.dir cs) => .entries (childEntries p cs)

/-- `FileSystemSource.read_file_bytes`: empty bytes on any failure. -/
def readFileBytes (tree : FSNode) (p : List String) : List Nat :=
  match lookup tree p with
  | some (.file c) => c
  | _ => []

/-- `FileSystemSource.is_empty`: `False` unless the path is a regular
file, else the shared blob check over its bytes. -/
def fsIsEmpty (parse : PyParse) (tree : FSNode) (p : List String) : Bool :=
  match lookup tree p with
  | some (.file c) => is_blob_semantically_empty parse c
  | _ => false

/-! ## Printer configuration, records and run state -/

/-- The constructor arguments of `DepthFirstPrinter`. -/
structure Config where
  include_empty : Bool
  only_headers : Bool
  extensions : List String
  exclude : List Exclusion

/-- The environment of one run: the tree behind the source adapter and
the model of `ast.parse` used by its emptiness check. -/
structure Env where
  cfg : Config
  tree : FSNode
  parse : PyParse

/-- One record handed to `writer.write`: the formatter call that produced
it, the display path and decoded text passed to the formatter, plus the
emitted entry's full path (the dedup key `str(entry.path)` is
`joinPath` of it). -/
inductive Rec where
  | header (epath : List String) (display : String)
  | body (epath : List String) (display : String) (text : String)
  | binary (epath : List String) (display : String)
deriving DecidableEq

def Rec.epath : Rec → List String
  | .header p _ => p
  | .body p _ _ => p
  | .binary p _ => p

/-- The mutable state of one `run()` invocation: `_printed_paths` (a list
used as a set), everything written to the writer in order, the budget
object if one was passed, and the trace of paths `list_dir` was called
on (observability of traversal). -/
structure RunState where
  printed : List String
  out : List Rec
  budget : Option FileBudget
  listed : List (List String)

/-- `budget is not None and budget.spent()`. -/
def budgetSpent (b : Option FileBudget) : Bool :=
  match b with
  | some fb => fb.spent
  | none => false

/-- `if budget is not None: budget.consume()`. -/
def budgetConsume (b : Option FileBudget) : Option FileBudget :=
  match b with
  | some fb => some fb.consume
  | none => none

/-- `os.path.relpath(path, start=base)` on segment lists (both paths are
renderings of the same root-resolved namespace, so the component-wise
rule applies). -/
def relPathSegs (p base : List String) : List String :=
  let c := (List.zip p base).takeWhile (fun ab => ab.1 = ab.2) |>.length
  List.replicate (base.length - c) ".." ++ p.drop c

/-- `DepthFirstPrinter._display_path`. -/
def displayPath (p base : List String) : String :=
  let rel := relPathSegs p base
  if rel.isEmpty then pathName p else joinPath rel

/-- `DepthFirstPrinter._excluded(entry)`. -/
def exclEntry (cfg : Config) (e : Entry) : Bool :=
  is_excluded (joinPath e.path) cfg.exclude

/-- `DepthFirstPrinter._handle_file(entry, writer, base=..., force=...,
budget=...)`. -/
def handle_file (env : Env) (base : List String) (e : Entry) (force : Bool)
    (st : RunState) : RunState :=
  if st.printed.contains (joinPath e.path) then st
  else if budgetSpent st.budget then st
  else if !force && exclEntry env.cfg e then st
  else if !force && !extension_match env.cfg.extensions e.name then st
  else if !force && (!env.cfg.include_empty && fsIsEmpty env.parse env.tree e.path) then st
  else if env.cfg.only_headers then
    ⟨joinPath e.path :: st.printed,
      st.out ++ [Rec.header e.path (displayPath e.path base)],
      budgetConsume st.budget, st.listed⟩
  else if is_text_bytes (readFileBytes env.tree e.path) then
    ⟨joinPath e.path :: st.printed,
      st.out ++ [Rec.body e.path (displayPath e.path base)
        (decode_text (readFileBytes env.tree e.path))],
      budgetConsume st.budget, st.listed⟩
  else
    ⟨joinPath e.path :: st.printed,
      st.out ++ [Rec.binary e.path (displayPath e.path base)],
      budgetConsume st.budget, st.listed⟩

/-- Stable sort of entries by `e.name.casefold()` ascending (Python
`list.sort(key=...)`): insertion sort inserting after equal keys. -/
def insortEntry (a : Entry) : List Entry → List Entry
  | [] => [a]
  | b :: bs =>
    if leChars (lowerList b.name.toList) (lowerList a.name.toList) then
      b :: insortEntry a bs
    else a :: b :: bs

def sortEntries (l : List Entry) : List Entry :=
  l.foldl (fun acc e => insortEntry e acc) []

/-- The body of the `while stack:` loop of `DepthFirstPrinter.run`,
indexed by fuel.  The Python stack pops from the end and directories are
appended in reverse sorted order; here the head of the list is the top of
the stack, so the sorted kept directories are prepended in order. -/
inductive LoopExit where
  | finished
  | halted
  | fuelOut
deriving DecidableEq

def runLoop (env : Env) (base : List String) :
    Nat → List (List String) → RunState → RunState × LoopExit
  | _, [], st => (st, .finished)
  | fuel, current :: rest, st =>
    if budgetSpent st.budget then (st, .halted)
    else
      match fuel with
      | 0 => (st, .fuelOut)
      | fuel' + 1 =>
        let st0 : RunState := ⟨st.printed, st.out, st.budget, st.listed ++ [current]⟩
        match listDir env.tree current with
        | .notADirectory =>
          let fileEntry : Entry := ⟨current, pathName current, .file⟩
          runLoop env base fuel' rest (handle_file env base fileEntry true st0)
        | .notFound => runLoop env base fuel' rest st0
        | .entries es =>
          let dirs := sortEntries (es.filter fun e => e.kind == NodeKind.directory)
          let files := sortEntries (es.filter fun e => e.kind == NodeKind.file)
          let kept := dirs.filter fun e => !exclEntry env.cfg e
          let st1 := files.foldl (fun s e => handle_file env base e false s) st0
          runLoop env base fuel' (kept.map (·.path) ++ rest) st1

/-- The `for root_spec in roots` loop of `run` (roots already resolved to
segment paths by `resolve_root`). -/
def runRoots (env : Env) (fuel : Nat) :
    List (List String) → RunState → RunState
  | [], st => st
  | r :: rest, st =>
    if budgetSpent st.budget then st
    else
      let res := runLoop env r fuel [r] st
      match res.2 with
      | .finished => runRoots env fuel rest res.1
      | _ => res.1

/-- `DepthFirstPrinter.run(roots, writer, budget)` from a fresh printer
(`_printed_paths` empty, writer empty). -/
def run (env : Env) (fuel : Nat) (roots : List (List String))
    (budget : Option FileBudget) : RunState :=
  runRoots env fuel roots ⟨[], [], budget, []⟩

/-! ## The reference traversal order

`refVisit` is the order the loop realizes, written as structural
recursion over the tree: when a directory is visited, its own files are
emitted in case-insensitive sorted order first, and then each kept
(non-excluded) subdirectory's entire subtree is visited, subdirectories
in case-insensitive sorted order; a path that resolves to a non-directory
is handled as a forced file entry.  Roots are folded strictly in the
order given. -/

mutual
def nodeSize : FSNode → Nat
  | .file _ => 1
  | .other => 1
  | .dir cs => 1 + pairsSize cs
def pairsSize : List (String × FSNode) → Nat
  | [] => 0
  | nc :: rest => nodeSize nc.2 + pairsSize rest
end

theorem assocChild_size (cs : List (String × FSNode)) (n : String) (c : FSNode)
    (h : assocChild cs n = some c) : nodeSize c ≤ pairsSize cs := by
  induction cs with
  | nil => simp [assocChild] at h
  | cons nc rest ih =>
    simp only [assocChild] at h
    split at h
    · cases h
      simp [pairsSize]
    · have := ih h
      simp [pairsSize]
      omega

/-- Sorted kept subdirectory entries of a directory's child list. -/
def keptDirs (cfg : Config) (p : List String)
    (cs : List (String × FSNode)) : List Entry :=
  (sortEntries ((childEntries p cs).filter fun e =>
    e.kind == NodeKind.directory)).filter fun e => !exclEntry cfg e

mutual
def refVisit (env : Env) (base : List String) :
    FSNode → List String → RunState → RunState
  | .dir cs, p, st =>
    let st0 : RunState := ⟨st.printed, st.out, st.budget, st.listed ++ [p]⟩
    let files := sortEntries ((childEntries p cs).filter fun e =>
      e.kind == NodeKind.file)
    let st1 := files.foldl (fun s e => handle_file env base e false s) st0
    refFold env base cs (keptDirs env.cfg p cs) st1
  | .file _, p, st =>
    let st0 : RunState := ⟨st.printed, st.out, st.budget, st.listed ++ [p]⟩
    handle_file env base ⟨p, pathName p, .file⟩ true st0
  | .other, p, st =>
    let st0 : RunState := ⟨st.printed, st.out, st.budget, st.listed ++ [p]⟩
    handle_file env base ⟨p, pathName p, .file⟩ true st0
termination_by t _ _ => (2 * nodeSize t + 1, 0)
decreasing_by
  apply Prod.Lex.left
  omega
def refFold (env : Env) (base : List String) (cs : List (String × FSNode)) :
    List Entry → RunState → RunState
  | [], st => st
  | e :: rest, st =>
    match h : assocChild cs e.name with
    | some c => refFold env base cs rest (refVisit env base c e.path st)
    | none =>
      refFold env base cs rest ⟨st.printed, st.out, st.budget, st.listed ++ [e.path]⟩
termination_by l _ => (2 * nodeSize (FSNode.dir cs), l.length)
decreasing_by
  all_goals
    first
    | (apply Prod.Lex.right; simp)
    | (apply Prod.Lex.left
       have := assocChild_size _ _ _ h
       simp only [nodeSize]
       omega)
end

mutual
/-- The fuel consumed by the loop on the subtree at `p` (one unit per
stack pop). -/
def popsVisit (env : Env) : FSNode → List String → Nat
  | .dir cs, p => 1 + popsFold env cs (keptDirs env.cfg p cs)
  | .file _, _ => 1
  | .other, _ => 1
termination_by t _ => (2 * nodeSize t + 1, 0)
decreasing_by
  apply Prod.Lex.left
  omega
def popsFold (env : Env) (cs : List (String × FSNode)) : List Entry → Nat
  | [] => 0
  | e :: rest =>
    (match h : assocChild cs e.name with
     | some c => popsVisit env c e.path
     | none => 1) + popsFold env cs rest
termination_by l => (2 * nodeSize (FSNode.dir cs), l.length)
decreasing_by
  all_goals
    first
    | (apply Prod.Lex.right; simp)
    | (apply Prod.Lex.left
       have := assocChild_size _ _ _ h
       simp only [nodeSize]
       omega)
end

/-- Reference handling of one root. -/
def refRoot (env : Env) (r : List String) (st : RunState) : RunState :=
  match lookup env.tree r with
  | some t => refVisit env r t r st
  | none => ⟨st.printed, st.out, st.budget, st.listed ++ [r]⟩

/-- Reference run: roots strictly in the order given, each to
exhaustion. -/
def refRun (env : Env) (roots : List (List String)) (st : RunState) : RunState :=
  roots.foldl (fun s r => refRoot env r s) st

/-- Fuel needed for one root. -/
def rootPops (env : Env) (r : List String) : Nat :=
  match lookup env.tree r with
  | some t => popsVisit env t r
  | none => 1

/-! ## The GitHub adapter's guarded GET (`adapters/github.py`)

`_get` is modelled over an abstract sequence of responses, one per
`session.get` call.  The `Retry-After` and `X-RateLimit-Reset` headers are
pre-parsed into optional integers (an absent, empty or unparsable header
is `none`, covering the `suppress(Exception)` in the source).
`time.sleep` is modelled as a log of waits. -/

structure Resp where
  status : Nat
  retryAfter : Option Int
  rateLimitReset : Option Int
deriving DecidableEq

def MAX_WAIT_SECONDS : Int := 180

/-- `_parse_rate_limit_wait_seconds(resp)` at current time `now`. -/
def parse_rate_limit_wait_seconds (now : Int) (r : Resp) : Option Int :=
  match r.retryAfter with
  | some ra => some ra
  | none =>
    match r.rateLimitReset with
    | some reset => some (max 0 (reset - now))
    | none => none

inductive GetResult where
  | ok (r : Resp)
  | rateLimitTooLong (wait : Int)
  | httpError (status : Nat)
deriving DecidableEq

/-- The observable outcome of `_get`: its result, the number of
`session.get` calls made, and the sleeps performed. -/
structure GetTrace where
  result : GetResult
  gets : Nat
  sleeps : List Int
deriving DecidableEq

/-- End of one loop iteration: `return resp` on 2xx,
`resp.raise_for_status()` (raises for 400-599), otherwise fall through
(`k` is the rest of the computation; after the last iteration it is the
trailing `return resp`). -/
def attemptTail (r : Resp) (gets : Nat) (sleeps : List Int) (k : GetTrace) :
    GetTrace :=
  if 200 ≤ r.status ∧ r.status < 300 then ⟨.ok r, gets, sleeps⟩
  else if 400 ≤ r.status ∧ r.status < 600 then ⟨.httpError r.status, gets, sleeps⟩
  else k

/-- `_get(session, url)`: the `for attempt in range(2)` loop unrolled. -/
def guardedGet (now : Int) (responses : Nat → Resp) : GetTrace :=
  let r0 := responses 0
  let r1 := responses 1
  let second : List Int → GetTrace := fun sleeps =>
    if r1.status = 403 ∨ r1.status = 429 then
      match parse_rate_limit_wait_seconds now r1 with
      | some w =>
        if w > MAX_WAIT_SECONDS then ⟨.rateLimitTooLong w, 2, sleeps⟩
        else attemptTail r1 2 sleeps ⟨.ok r1, 2, sleeps⟩
      | none => attemptTail r1 2 sleeps ⟨.ok r1, 2, sleeps⟩
    else attemptTail r1 2 sleeps ⟨.ok r1, 2, sleeps⟩
  if r0.status = 403 ∨ r0.status = 429 then
    match parse_rate_limit_wait_seconds now r0 with
    | some w =>
      if w > MAX_WAIT_SECONDS then ⟨.rateLimitTooLong w, 1, []⟩
      else second [w]
    | none => attemptTail r0 1 [] (second [])
  else attemptTail r0 1 [] (second [])

/-- UTF-8 bytes of an ASCII string (used to spell out file contents). -/
def strBytes (s : String) : List Nat := s.toList.map Char.toNat

/-! ## Characterization of extension matching (claim C2) -/

/-- C2: the extension filter is a total boolean function of the pattern
list and filename: an empty pattern list matches every filename; a
glob-flavored pattern matches by shell glob against the bare filename; a
non-glob pattern other than the extensionless sentinel matches exactly
the filenames ending in `"."` plus the pattern without its leading dot;
and the sentinel pattern matches exactly the filenames containing no dot.
(The sentinel constant is modelled from the spec, being absent from
`defaults.py`.) -/
theorem claim_C2 (exts : List String) (name : String) :
    extension_match exts name = true ↔
      (exts = [] ∨ ∃ p ∈ exts,
        (is_glob p = true ∧ fnmatch name p = true) ∨
        (is_glob p = false ∧ p = EXTENSIONLESS_SENTINEL ∧
          name.toList.contains '.' = false) ∨
        (is_glob p = false ∧ p ≠ EXTENSIONLESS_SENTINEL ∧
          endsStr name ("." ++ stripDot p) = true)) := by
  unfold extension_match
  by_cases he : exts = []
  · subst he
    simp
  · have hne : exts.isEmpty = false := by
      simpa [List.isEmpty_iff] using he
    simp only [hne, Bool.false_eq_true, if_false, List.any_eq_true]
    constructor
    · rintro ⟨p, hp, hcond⟩
      refine Or.inr ⟨p, hp, ?_⟩
      by_cases hg : is_glob p
      · rw [if_pos hg] at hcond
        exact Or.inl ⟨hg, hcond⟩
      · rw [if_neg hg] at hcond
        by_cases hs : p == EXTENSIONLESS_SENTINEL
        · rw [if_pos hs] at hcond
          refine Or.inr (Or.inl ⟨by simpa using hg, by simpa using hs, ?_⟩)
          simpa using hcond
        · rw [if_neg hs] at hcond
          refine Or.inr (Or.inr ⟨by simpa using hg, by simpa using hs, hcond⟩)
    · rintro (rfl | ⟨p, hp, hcase⟩)
      · exact absurd rfl he
      · refine ⟨p, hp, ?_⟩
        rcases hcase with ⟨hg, hm⟩ | ⟨hg, hsent, hdot⟩ | ⟨hg, hsent, hend⟩
        · rw [if_pos hg]; exact hm
        · rw [if_neg (by simp [hg]), if_pos (by simpa using hsent)]
          simpa using hdot
        · rw [if_neg (by simp [hg]), if_neg (by simpa using hsent)]
          exact hend

/-! ## The anatomy of `_handle_file` -/

/-- `_handle_file` either does nothing — because the path key was already
printed, the budget is spent, or a non-forced entry fails one of the
three filters — or it emits exactly one record carrying the entry's
path, records the key, and consumes one budget unit.  The emit case can
only be reached with an unprinted key, an unspent budget and either
`force` or all three checks passing. -/
theorem handle_file_spec (env : Env) (base : List String) (e : Entry)
    (force : Bool) (st : RunState) :
    (handle_file env base e force st = st ∧
      (joinPath e.path ∈ st.printed ∨ budgetSpent st.budget = true ∨
        (force = false ∧ (exclEntry env.cfg e = true ∨
          extension_match env.cfg.extensions e.name = false ∨
          (env.cfg.include_empty = false ∧
            fsIsEmpty env.parse env.tree e.path = true))))) ∨
    (joinPath e.path ∉ st.printed ∧ budgetSpent st.budget = false ∧
      (force = true ∨ (exclEntry env.cfg e = false ∧
        extension_match env.cfg.extensions e.name = true ∧
        (env.cfg.include_empty = true ∨
          fsIsEmpty env.parse env.tree e.path = false))) ∧
      ∃ r : Rec, r.epath = e.path ∧
        handle_file env base e force st =
          ⟨joinPath e.path :: st.printed, st.out ++ [r],
            budgetConsume st.budget, st.listed⟩) := by
  have hside : budgetSpent st.budget = false → force = false →
      ¬(!force && exclEntry env.cfg e) = true →
      ¬(!force && !extension_match env.cfg.extensions e.name) = true →
      ¬(!force && (!env.cfg.include_empty &&
        fsIsEmpty env.parse env.tree e.path)) = true →
      (force = true ∨ (exclEntry env.cfg e = false ∧
        extension_match env.cfg.extensions e.name = true ∧
        (env.cfg.include_empty = true ∨
          fsIsEmpty env.parse env.tree e.path = false))) := by
    intro _ hf h3 h4 h5
    subst hf
    simp only [Bool.not_false, Bool.true_and] at h3 h4 h5
    have h3' : exclEntry env.cfg e = false := by revert h3; simp
    have h4' : extension_match env.cfg.extensions e.name = true := by
      revert h4; simp
    refine Or.inr ⟨h3', h4', ?_⟩
    rcases Bool.eq_false_or_eq_true env.cfg.include_empty with hi | hi
    · exact Or.inl hi
    · refine Or.inr ?_
      revert h5; simp [hi]
  unfold handle_file
  split_ifs with h1 h2 h3 h4 h5 h6 h7
  · exact Or.inl ⟨rfl, Or.inl (by simpa [List.contains, List.elem_iff] using h1)⟩
  · exact Or.inl ⟨rfl, Or.inr (Or.inl h2)⟩
  · simp only [Bool.and_eq_true, Bool.not_eq_true'] at h3
    exact Or.inl ⟨rfl, Or.inr (Or.inr ⟨h3.1, Or.inl h3.2⟩)⟩
  · simp only [Bool.and_eq_true, Bool.not_eq_true'] at h4
    exact Or.inl ⟨rfl, Or.inr (Or.inr ⟨h4.1, Or.inr (Or.inl h4.2)⟩)⟩
  · simp only [Bool.and_eq_true, Bool.not_eq_true'] at h5
    exact Or.inl ⟨rfl, Or.inr (Or.inr ⟨h5.1, Or.inr (Or.inr ⟨h5.2.1, h5.2.2⟩)⟩)⟩
  all_goals
    refine Or.inr ⟨by simpa [List.contains, List.elem_iff] using h1,
      by simpa using h2, ?_, ?_⟩
  · rcases Bool.eq_false_or_eq_true force with hf | hf
    · exact Or.inl hf
    · exact hside (by simpa using h2) hf h3 h4 h5
  · exact ⟨Rec.header e.path (displayPath e.path base), rfl, rfl⟩
  · rcases Bool.eq_false_or_eq_true force with hf | hf
    · exact Or.inl hf
    · exact hside (by simpa using h2) hf h3 h4 h5
  · exact ⟨Rec.body e.path (displayPath e.path base)
      (decode_text (readFileBytes env.tree e.path)), rfl, rfl⟩
  · rcases Bool.eq_false_or_eq_true force with hf | hf
    · exact Or.inl hf
    · exact hside (by simpa using h2) hf h3 h4 h5
  · exact ⟨Rec.binary e.path (displayPath e.path base), rfl, rfl⟩

/-- `_handle_file` never reads or writes the `list_dir` trace. -/
theorem handle_file_listed (env : Env) (base : List String) (e : Entry)
    (force : Bool) (st : RunState) :
    (handle_file env base e force st).listed = st.listed := by
  rcases handle_file_spec env base e force st with ⟨heq, -⟩ | ⟨-, -, -, r, -, heq⟩ <;>
    rw [heq]

/-! ## An unlimited `FileBudget` behaves exactly like no budget -/

/-- Two run states that agree except that the first carries the
unlimited budget object where the second carries no budget. -/
def UnlRel (a b : RunState) : Prop :=
  a.printed = b.printed ∧ a.out = b.out ∧ a.listed = b.listed ∧
    a.budget = some none ∧ b.budget = none

theorem handle_file_unl (env : Env) (base : List String) (e : Entry)
    (force : Bool) (a b : RunState) (h : UnlRel a b) :
    UnlRel (handle_file env base e force a) (handle_file env base e force b) := by
  rcases a with ⟨ap, ao, ab, al⟩
  rcases b with ⟨bp, bo, bb, bl⟩
  obtain ⟨hp, ho, hl, hba, hbb⟩ := h
  simp only at hp ho hl hba hbb
  subst hp; subst ho; subst hl; subst hba; subst hbb
  unfold handle_file
  simp only [budgetSpent, FileBudget.spent, budgetConsume, FileBudget.consume]
  split_ifs <;> exact ⟨rfl, rfl, rfl, rfl, rfl⟩

theorem foldHandle_unl (env : Env) (base : List String) :
    ∀ (es : List Entry) (a b : RunState), UnlRel a b →
    UnlRel (es.foldl (fun s e => handle_file env base e false s) a)
      (es.foldl (fun s e => handle_file env base e false s) b) := by
  intro es
  induction es with
  | nil => intro a b h; exact h
  | cons e rest ih =>
    intro a b h
    exact ih _ _ (handle_file_unl env base e false a b h)

theorem runLoop_unl (env : Env) (base : List String) :
    ∀ (fuel : Nat) (stack : List (List String)) (a b : RunState), UnlRel a b →
    UnlRel (runLoop env base fuel stack a).1 (runLoop env base fuel stack b).1 ∧
      (runLoop env base fuel stack a).2 = (runLoop env base fuel stack b).2 := by
  intro fuel
  induction fuel with
  | zero =>
    intro stack a b h
    cases stack with
    | nil => exact ⟨h, rfl⟩
    | cons c rest =>
      rw [runLoop, runLoop]
      simp only [budgetSpent, FileBudget.spent, h.2.2.2.1, h.2.2.2.2]
      exact ⟨h, rfl⟩
  | succ fuel ih =>
    intro stack a b h
    cases stack with
    | nil => exact ⟨h, rfl⟩
    | cons c rest =>
      rw [runLoop, runLoop]
      simp only [budgetSpent, FileBudget.spent, h.2.2.2.1, h.2.2.2.2]
      have h0 : UnlRel ⟨a.printed, a.out, some none, a.listed ++ [c]⟩
          ⟨b.printed, b.out, none, b.listed ++ [c]⟩ :=
        ⟨h.1, h.2.1, by simp only [h.2.2.1], rfl, rfl⟩
      cases hld : listDir env.tree c with
      | notADirectory =>
        exact ih rest _ _ (handle_file_unl env base _ true _ _ h0)
      | notFound => exact ih rest _ _ h0
      | entries es =>
        exact ih _ _ _ (foldHandle_unl env base _ _ _ h0)

theorem runRoots_unl (env : Env) (fuel : Nat) :
    ∀ (roots : List (List String)) (a b : RunState), UnlRel a b →
    UnlRel (runRoots env fuel roots a) (runRoots env fuel roots b) := by
  intro roots
  induction roots with
  | nil => intro a b h; exact h
  | cons r rest ih =>
    intro a b h
    rw [runRoots, runRoots]
    simp only [budgetSpent, FileBudget.spent, h.2.2.2.1, h.2.2.2.2]
    obtain ⟨hrel, hex⟩ := runLoop_unl env r fuel [r] a b h
    rw [← hex]
    cases hx : (runLoop env r fuel [r] a).2 with
    | finished => exact ih _ _ hrel
    | halted => exact hrel
    | fuelOut => exact hrel

/-! ## At-most-once emission (toward claim C7) -/

/-- The dedup keys (`str(entry.path)`) of the records written so far, in
emission order. -/
def recKeys (out : List Rec) : List String :=
  out.map fun r => joinPath r.epath

/-- The dedup invariant: `_printed_paths` holds exactly the keys of the
records already written (newest first), with no duplicates. -/
def PrintInv (st : RunState) : Prop :=
  st.printed = (recKeys st.out).reverse ∧ st.printed.Nodup

theorem handle_file_inv (env : Env) (base : List String) (e : Entry)
    (force : Bool) (st : RunState) (h : PrintInv st) :
    PrintInv (handle_file env base e force st) := by
  rcases handle_file_spec env base e force st with ⟨heq, -⟩ |
    ⟨hnm, -, -, r, hre, heq⟩
  · rw [heq]; exact h
  · rw [heq]
    refine ⟨?_, List.nodup_cons.mpr ⟨hnm, h.2⟩⟩
    simp only [recKeys, List.map_append, List.map_cons, List.map_nil,
      List.reverse_append, List.reverse_cons, List.reverse_nil,
      List.nil_append, List.cons_append, hre]
    rw [h.1]
    rfl

theorem foldHandle_inv (env : Env) (base : List String) :
    ∀ (es : List Entry) (st : RunState), PrintInv st →
    PrintInv (es.foldl (fun s e => handle_file env base e false s) st) := by
  intro es
  induction es with
  | nil => intro st h; exact h
  | cons e rest ih =>
    intro st h
    exact ih _ (handle_file_inv env base e false st h)

theorem runLoop_inv (env : Env) (base : List String) :
    ∀ (fuel : Nat) (stack : List (List String)) (st : RunState),
    PrintInv st → PrintInv (runLoop env base fuel stack st).1 := by
  intro fuel
  induction fuel with
  | zero =>
    intro stack st h
    cases stack with
    | nil => exact h
    | cons c rest =>
      rw [runLoop]
      split <;> exact h
  | succ fuel ih =>
    intro stack st h
    cases stack with
    | nil => exact h
    | cons c rest =>
      rw [runLoop]
      by_cases hb : budgetSpent st.budget = true
      · rw [if_pos hb]; exact h
      · rw [if_neg hb]
        dsimp only
        have h0 : PrintInv ⟨st.printed, st.out, st.budget, st.listed ++ [c]⟩ :=
          ⟨h.1, h.2⟩
        cases hld : listDir env.tree c with
        | notADirectory =>
          exact ih rest _ (handle_file_inv env base _ true _ h0)
        | notFound => exact ih rest _ h0
        | entries es => exact ih _ _ (foldHandle_inv env base _ _ h0)

theorem runRoots_inv (env : Env) (fuel : Nat) :
    ∀ (roots : List (List String)) (st : RunState), PrintInv st →
    PrintInv (runRoots env fuel roots st) := by
  intro roots
  induction roots with
  | nil => intro st h; exact h
  | cons r rest ih =>
    intro st h
    rw [runRoots]
    by_cases hb : budgetSpent st.budget = true
    · rw [if_pos hb]; exact h
    · rw [if_neg hb]
      dsimp only
      cases hx : (runLoop env r fuel [r] st).2 with
      | finished => exact ih _ (runLoop_inv env r fuel [r] st h)
      | halted => exact runLoop_inv env r fuel [r] st h
      | fuelOut => exact runLoop_inv env r fuel [r] st h

/-- C7: in every run, `_printed_paths` ends up holding exactly the dedup
keys of the records written (newest first) and those keys contain no
duplicate — every file path key yields at most one record, however often
the file is reached; and any call of `_handle_file` on a path key already
in `_printed_paths` writes nothing and leaves the state unchanged (the
membership guard). -/
theorem claim_C7 :
    (∀ (env : Env) (fuel : Nat) (roots : List (List String))
        (budget : Option FileBudget),
      (run env fuel roots budget).printed =
        (recKeys (run env fuel roots budget).out).reverse ∧
      (recKeys (run env fuel roots budget).out).Nodup) ∧
    (∀ (env : Env) (base : List String) (e : Entry) (force : Bool)
        (st : RunState), joinPath e.path ∈ st.printed →
      handle_file env base e force st = st) := by
  constructor
  · intro env fuel roots budget
    have h : PrintInv (run env fuel roots budget) :=
      runRoots_inv env fuel roots ⟨[], [], budget, []⟩ ⟨rfl, List.nodup_nil⟩
    refine ⟨h.1, ?_⟩
    have h2 := h.2
    rw [h.1] at h2
    exact List.nodup_reverse.mp h2
  · intro env base e force st hmem
    have hc : st.printed.contains (joinPath e.path) = true := by
      simpa [List.contains, List.elem_iff] using hmem
    unfold handle_file
    rw [if_pos hc]

theorem claim_C7_witness :
    joinPath ["a"] ∈ ["a"] ∧
      handle_file ⟨⟨true, true, [], []⟩, FSNode.dir [], fun _ => none⟩ []
        ⟨["a"], "a", NodeKind.file⟩ false ⟨["a"], [], none, []⟩ =
        ⟨["a"], [], none, []⟩ :=
  ⟨by decide,
    claim_C7.2 ⟨⟨true, true, [], []⟩, FSNode.dir [], fun _ => none⟩ []
      ⟨["a"], "a", NodeKind.file⟩ false ⟨["a"], [], none, []⟩ (by decide)⟩

/-! ## Exclusion prunes whole subtrees (toward claim C9) -/

theorem mem_insortEntry (a b : Entry) :
    ∀ l : List Entry, a ∈ insortEntry b l ↔ a = b ∨ a ∈ l := by
  intro l
  induction l with
  | nil => simp [insortEntry]
  | cons c cs ih =>
    rw [insortEntry]
    split
    · simp only [List.mem_cons, ih]
      tauto
    · simp only [List.mem_cons]

theorem mem_sortEntries_aux :
    ∀ (l acc : List Entry) (a : Entry),
    a ∈ l.foldl (fun acc e => insortEntry e acc) acc ↔ a ∈ acc ∨ a ∈ l := by
  intro l
  induction l with
  | nil => simp
  | cons e rest ih =>
    intro acc a
    simp only [List.foldl_cons]
    rw [ih (insortEntry e acc) a, mem_insortEntry]
    simp only [List.mem_cons]
    tauto

theorem mem_sortEntries (l : List Entry) (a : Entry) :
    a ∈ sortEntries l ↔ a ∈ l := by
  unfold sortEntries
  rw [mem_sortEntries_aux]
  simp

theorem prefix_snoc_cases (d c : List String) (x : String)
    (h : d <+: c ++ [x]) : d <+: c ∨ d = c ++ [x] := by
  by_cases hl : d.length ≤ c.length
  · exact Or.inl (List.prefix_of_prefix_length_le h (List.prefix_append c [x]) hl)
  · have h2 := h.length_le
    have hlen : d.length = (c ++ [x]).length := by
      simp only [List.length_append, List.length_singleton] at h2 ⊢
      omega
    exact Or.inr (h.eq_of_length hlen)

/-- A non-forced call on an excluded entry writes nothing. -/
theorem handle_file_excl (env : Env) (base : List String) (e : Entry)
    (st : RunState) (hx : exclEntry env.cfg e = true) :
    handle_file env base e false st = st := by
  rcases handle_file_spec env base e false st with ⟨heq, -⟩ | ⟨-, -, hok, -⟩
  · exact heq
  · rcases hok with hforce | ⟨hex, -⟩
    · exact Bool.noConfusion hforce
    · rw [hx] at hex
      exact Bool.noConfusion hex

theorem childEntries_path (p : List String) (cs : List (String × FSNode))
    (e : Entry) (h : e ∈ childEntries p cs) : ∃ x, e.path = p ++ [x] := by
  unfold childEntries at h
  rw [List.mem_map] at h
  obtain ⟨nc, -, heq⟩ := h
  exact ⟨nc.1, by rw [← heq]⟩

/-- No listed path and no emitted record's path lies in the subtree
rooted at `d`. -/
def ExclFree (d : List String) (st : RunState) : Prop :=
  (∀ p ∈ st.listed, ¬ d <+: p) ∧ (∀ r ∈ st.out, ¬ d <+: r.epath)

theorem handle_file_pref (env : Env) (base : List String) (e : Entry)
    (force : Bool) (st : RunState) (d : List String) (hne : ¬ d <+: e.path)
    (h : ExclFree d st) : ExclFree d (handle_file env base e force st) := by
  rcases handle_file_spec env base e force st with ⟨heq, -⟩ |
    ⟨-, -, -, r, hre, heq⟩
  · rw [heq]; exact h
  · rw [heq]
    refine ⟨h.1, ?_⟩
    intro r' hr'
    rcases List.mem_append.mp hr' with hin | hin
    · exact h.2 r' hin
    · rw [List.mem_singleton] at hin
      subst hin
      rw [hre]
      exact hne

theorem foldHandle_pref (env : Env) (base : List String) (d : List String) :
    ∀ (es : List Entry) (st : RunState),
    (∀ e ∈ es, ¬ d <+: e.path ∨ exclEntry env.cfg e = true) →
    ExclFree d st →
    ExclFree d (es.foldl (fun s e => handle_file env base e false s) st) := by
  intro es
  induction es with
  | nil => intro st _ h; exact h
  | cons e rest ih =>
    intro st hes h
    simp only [List.foldl_cons]
    rcases hes e (by simp) with hne | hex
    · exact ih _ (fun e' he' => hes e' (by simp [he']))
        (handle_file_pref env base e false st d hne h)
    · rw [handle_file_excl env base e st hex]
      exact ih _ (fun e' he' => hes e' (by simp [he'])) h

theorem runLoop_prune (env : Env) (base : List String) (d : List String)
    (hd : is_excluded (joinPath d) env.cfg.exclude = true) :
    ∀ (fuel : Nat) (stack : List (List String)) (st : RunState),
    (∀ p ∈ stack, ¬ d <+: p) → ExclFree d st →
    ExclFree d (runLoop env base fuel stack st).1 := by
  intro fuel
  induction fuel with
  | zero =>
    intro stack st hstack h
    cases stack with
    | nil => exact h
    | cons c rest =>
      rw [runLoop]
      split <;> exact h
  | succ fuel ih =>
    intro stack st hstack h
    cases stack with
    | nil => exact h
    | cons c rest =>
      rw [runLoop]
      by_cases hb : budgetSpent st.budget = true
      · rw [if_pos hb]; exact h
      · rw [if_neg hb]
        dsimp only
        have hc : ¬ d <+: c := hstack c (by simp)
        have hrest : ∀ p ∈ rest, ¬ d <+: p := fun p hp => hstack p (by simp [hp])
        have h0 : ExclFree d ⟨st.printed, st.out, st.budget, st.listed ++ [c]⟩ := by
          refine ⟨?_, h.2⟩
          intro p hp
          rcases List.mem_append.mp hp with hin | hin
          · exact h.1 p hin
          · rw [List.mem_singleton] at hin
            subst hin
            exact hc
        cases hld : listDir env.tree c with
        | notADirectory =>
          exact ih rest _ hrest (handle_file_pref env base _ true _ d hc h0)
        | notFound => exact ih rest _ hrest h0
        | entries es =>
          have hshape : ∀ e ∈ es, ∃ x, e.path = c ++ [x] := by
            unfold listDir at hld
            cases hlk : lookup env.tree c with
            | none => rw [hlk] at hld; cases hld
            | some t =>
              rw [hlk] at hld
              cases t with
              | file bs => cases hld
              | other => cases hld
              | dir cs =>
                injection hld with hes
                subst hes
                exact childEntries_path c cs
          have hcase : ∀ e ∈ es, ¬ d <+: e.path ∨ exclEntry env.cfg e = true := by
            intro e he
            by_cases hdp : d <+: e.path
            · obtain ⟨x, hx⟩ := hshape e he
              rw [hx] at hdp
              rcases prefix_snoc_cases d c x hdp with hpc | hdeq
              · exact absurd hpc hc
              · refine Or.inr ?_
                unfold exclEntry
                rw [hx, ← hdeq]
                exact hd
            · exact Or.inl hdp
          have hfiles : ∀ e ∈ sortEntries (es.filter fun e =>
              e.kind == NodeKind.file), ¬ d <+: e.path ∨ exclEntry env.cfg e = true := by
            intro e he
            rw [mem_sortEntries] at he
            exact hcase e (List.mem_filter.mp he).1
          have hkept : ∀ p ∈ ((sortEntries (es.filter fun e =>
                e.kind == NodeKind.directory)).filter fun e =>
                !exclEntry env.cfg e).map (·.path) ++ rest, ¬ d <+: p := by
            intro p hp
            rcases List.mem_append.mp hp with hin | hin
            · rw [List.mem_map] at hin
              obtain ⟨e, he, hpe⟩ := hin
              have hnx := (List.mem_filter.mp he).2
              have hmem := (List.mem_filter.mp he).1
              rw [mem_sortEntries] at hmem
              have hmem' := (List.mem_filter.mp hmem).1
              subst hpe
              rcases hcase e hmem' with hne | hex
              · exact hne
              · rw [hex] at hnx
                exact Bool.noConfusion hnx
            · exact hrest p hin
          exact ih _ _ hkept (foldHandle_pref env base d _ _ hfiles h0)

theorem runRoots_prune (env : Env) (d : List String)
    (hd : is_excluded (joinPath d) env.cfg.exclude = true) (fuel : Nat) :
    ∀ (roots : List (List String)) (st : RunState),
    (∀ r ∈ roots, ¬ d <+: r) → ExclFree d st →
    ExclFree d (runRoots env fuel roots st) := by
  intro roots
  induction roots with
  | nil => intro st _ h; exact h
  | cons r rest ih =>
    intro st hroots h
    rw [runRoots]
    by_cases hb : budgetSpent st.budget = true
    · rw [if_pos hb]; exact h
    · rw [if_neg hb]
      dsimp only
      have hr : ∀ q ∈ [r], ¬ d <+: q := by
        intro q hq
        rw [List.mem_singleton] at hq
        rw [hq]
        exact hroots r (by simp)
      have h1 := runLoop_prune env r d hd fuel [r] st hr h
      cases hx : (runLoop env r fuel [r] st).2 with
      | finished => exact ih _ (fun p hp => hroots p (by simp [hp])) h1
      | halted => exact h1
      | fuelOut => exact h1

/-- C9: a path `d` that matches an exclusion rule, with no root of the
invocation inside its subtree, is pruned wholesale: no path having `d` as
a prefix is ever passed to `list_dir` (in particular `d` is never pushed
onto the traversal stack), and no record whose path lies under `d` is
ever written — even for files beneath `d` that match no exclusion rule
and pass every other filter. -/
theorem claim_C9 (env : Env) (fuel : Nat) (roots : List (List String))
    (budget : Option FileBudget) (d : List String)
    (hd : is_excluded (joinPath d) env.cfg.exclude = true)
    (hroots : ∀ r ∈ roots, ¬ d <+: r) :
    (∀ p ∈ (run env fuel roots budget).listed, ¬ d <+: p) ∧
    (∀ r ∈ (run env fuel roots budget).out, ¬ d <+: r.epath) :=
  runRoots_prune env d hd fuel roots ⟨[], [], budget, []⟩ hroots
    ⟨fun p hp => absurd hp (List.not_mem_nil p),
     fun r hr => absurd hr (List.not_mem_nil r)⟩

theorem claim_C9_witness :
    is_excluded (joinPath ["b"]) [Exclusion.str "b"] = true ∧
    (∀ p ∈ (run ⟨⟨true, true, [], [Exclusion.str "b"]⟩, FSNode.dir [],
        fun _ => none⟩ 5 [["a"]] none).listed, ¬ ["b"] <+: p) ∧
    (∀ r ∈ (run ⟨⟨true, true, [], [Exclusion.str "b"]⟩, FSNode.dir [],
        fun _ => none⟩ 5 [["a"]] none).out, ¬ ["b"] <+: r.epath) :=
  ⟨by decide,
    claim_C9 ⟨⟨true, true, [], [Exclusion.str "b"]⟩, FSNode.dir [],
      fun _ => none⟩ 5 [["a"]] none ["b"] (by decide) (by decide)⟩

/-! ## Budget exactness (toward claim C3) -/

/-- Whether `_handle_file` decides to emit, as a function of the entry,
the force flag and the printed set only (the budget being unspent). -/
def emits (env : Env) (e : Entry) (force : Bool) (P : List String) : Bool :=
  !(P.contains (joinPath e.path)) &&
  (force || (!(exclEntry env.cfg e) &&
    extension_match env.cfg.extensions e.name &&
    !(!env.cfg.include_empty && fsIsEmpty env.parse env.tree e.path)))

/-- The record `_handle_file` writes when it emits: header-only, text
body, or binary placeholder. -/
def emitRec (env : Env) (base : List String) (e : Entry) : Rec :=
  if env.cfg.only_headers then Rec.header e.path (displayPath e.path base)
  else if is_text_bytes (readFileBytes env.tree e.path) then
    Rec.body e.path (displayPath e.path base)
      (decode_text (readFileBytes env.tree e.path))
  else Rec.binary e.path (displayPath e.path base)

/-- With an unspent budget, `_handle_file` is the deterministic function
of its decision bit: emit the one record and consume, or do nothing. -/
theorem handle_file_char (env : Env) (base : List String) (e : Entry)
    (force : Bool) (P : List String) (O : List Rec) (bb : Option FileBudget)
    (L : List (List String)) (hb : budgetSpent bb = false) :
    handle_file env base e force ⟨P, O, bb, L⟩ =
      if emits env e force P then
        ⟨joinPath e.path :: P, O ++ [emitRec env base e],
          budgetConsume bb, L⟩
      else ⟨P, O, bb, L⟩ := by
  unfold handle_file emits emitRec
  dsimp only
  by_cases c1 : P.contains (joinPath e.path) = true <;>
    by_cases c2 : exclEntry env.cfg e = true <;>
    by_cases c3 : extension_match env.cfg.extensions e.name = true <;>
    by_cases c4 : (!env.cfg.include_empty &&
      fsIsEmpty env.parse env.tree e.path) = true <;>
    by_cases c5 : env.cfg.only_headers = true <;>
    by_cases c6 : is_text_bytes (readFileBytes env.tree e.path) = true <;>
    cases force <;>
    simp [c1, c2, c3, c4, c5, c6, hb]

/-- Once the budget reads as spent, `_handle_file` writes nothing. -/
theorem handle_file_spent (env : Env) (base : List String) (e : Entry)
    (force : Bool) (st : RunState) (hb : budgetSpent st.budget = true) :
    handle_file env base e force st = st := by
  unfold handle_file
  by_cases c1 : st.printed.contains (joinPath e.path) = true
  · rw [if_pos c1]
  · rw [if_neg c1, if_pos hb]

theorem foldHandle_spent (env : Env) (base : List String) :
    ∀ (es : List Entry) (st : RunState), budgetSpent st.budget = true →
    es.foldl (fun s e => handle_file env base e false s) st = st := by
  intro es
  induction es with
  | nil => intro st _; rfl
  | cons e rest ih =>
    intro st hb
    simp only [List.foldl_cons]
    rw [handle_file_spent env base e false st hb]
    exact ih st hb

/-- A loop entered with a spent budget stops at once. -/
theorem runLoop_spent (env : Env) (base : List String) (fuel : Nat)
    (stack : List (List String)) (st : RunState)
    (hb : budgetSpent st.budget = true) :
    ∃ ex, runLoop env base fuel stack st = (st, ex) := by
  cases stack with
  | nil =>
    refine ⟨.finished, ?_⟩
    cases fuel <;> rfl
  | cons c rest =>
    refine ⟨.halted, ?_⟩
    cases fuel <;> rw [runLoop, if_pos hb]

/-- Further roots are not traversed once the budget is spent. -/
theorem runRoots_spent (env : Env) (fuel : Nat)
    (roots : List (List String)) (st : RunState)
    (hb : budgetSpent st.budget = true) :
    runRoots env fuel roots st = st := by
  cases roots with
  | nil => rfl
  | cons r rest => rw [runRoots, if_pos hb]

/-- A budget-free `_handle_file` call appends to the writer and keeps the
budget absent. -/
theorem handle_file_none (env : Env) (base : List String) (e : Entry)
    (force : Bool) (st : RunState) (h : st.budget = none) :
    (handle_file env base e force st).budget = none ∧
    ∃ D, (handle_file env base e force st).out = st.out ++ D := by
  rcases handle_file_spec env base e force st with ⟨heq, -⟩ |
    ⟨-, -, -, r, -, heq⟩
  · rw [heq]
    exact ⟨h, [], by simp⟩
  · rw [heq]
    refine ⟨?_, [r], rfl⟩
    rw [h]
    rfl

theorem foldHandle_none (env : Env) (base : List String) :
    ∀ (es : List Entry) (st : RunState), st.budget = none →
    (es.foldl (fun s e => handle_file env base e false s) st).budget = none ∧
    ∃ D, (es.foldl (fun s e => handle_file env base e false s) st).out =
      st.out ++ D := by
  intro es
  induction es with
  | nil => intro st h; exact ⟨h, [], by simp⟩
  | cons e rest ih =>
    intro st h
    simp only [List.foldl_cons]
    obtain ⟨hb1, D1, h1⟩ := handle_file_none env base e false st h
    obtain ⟨hb2, D2, h2⟩ := ih _ hb1
    exact ⟨hb2, D1 ++ D2, by rw [h2, h1, List.append_assoc]⟩

/-- A budget-free loop only appends to the writer and keeps the budget
absent. -/
theorem runLoop_none (env : Env) (base : List String) :
    ∀ (fuel : Nat) (stack : List (List String)) (st : RunState),
    st.budget = none →
    (runLoop env base fuel stack st).1.budget = none ∧
    ∃ D, (runLoop env base fuel stack st).1.out = st.out ++ D := by
  intro fuel
  induction fuel with
  | zero =>
    intro stack st h
    cases stack with
    | nil => exact ⟨h, [], by simp [runLoop]⟩
    | cons c rest =>
      rw [runLoop]
      split <;> exact ⟨h, [], by simp⟩
  | succ fuel ih =>
    intro stack st h
    cases stack with
    | nil => exact ⟨h, [], by simp [runLoop]⟩
    | cons c rest =>
      rw [runLoop]
      by_cases hb : budgetSpent st.budget = true
      · rw [if_pos hb]
        exact ⟨h, [], by simp⟩
      · rw [if_neg hb]
        dsimp only
        cases hld : listDir env.tree c with
        | notADirectory =>
          obtain ⟨hb1, D1, h1⟩ := handle_file_none env base
            ⟨c, pathName c, .file⟩ true ⟨st.printed, st.out, st.budget,
              st.listed ++ [c]⟩ h
          obtain ⟨hb2, D2, h2⟩ := ih rest _ hb1
          exact ⟨hb2, D1 ++ D2, by rw [h2, h1]; simp [List.append_assoc]⟩
        | notFound =>
          obtain ⟨hb2, D2, h2⟩ := ih rest
            ⟨st.printed, st.out, st.budget, st.listed ++ [c]⟩ h
          exact ⟨hb2, D2, h2⟩
        | entries es =>
          obtain ⟨hb1, D1, h1⟩ := foldHandle_none env base
            (sortEntries (es.filter fun e => e.kind == NodeKind.file))
            ⟨st.printed, st.out, st.budget, st.listed ++ [c]⟩ h
          obtain ⟨hb2, D2, h2⟩ := ih _ _ hb1
          exact ⟨hb2, D1 ++ D2, by rw [h2, h1]; simp [List.append_assoc]⟩

theorem runRoots_none (env : Env) (fuel : Nat) :
    ∀ (roots : List (List String)) (st : RunState), st.budget = none →
    (runRoots env fuel roots st).budget = none ∧
    ∃ D, (runRoots env fuel roots st).out = st.out ++ D := by
  intro roots
  induction roots with
  | nil => intro st h; exact ⟨h, [], by simp [runRoots]⟩
  | cons r rest ih =>
    intro st h
    rw [runRoots]
    by_cases hb : budgetSpent st.budget = true
    · rw [if_pos hb]
      exact ⟨h, [], by simp⟩
    · rw [if_neg hb]
      dsimp only
      obtain ⟨hb1, D1, h1⟩ := runLoop_none env r fuel [r] st h
      cases hx : (runLoop env r fuel [r] st).2 with
      | finished =>
        obtain ⟨hb2, D2, h2⟩ := ih _ hb1
        exact ⟨hb2, D1 ++ D2, by rw [h2, h1, List.append_assoc]⟩
      | halted => exact ⟨hb1, D1, h1⟩
      | fuelOut => exact ⟨hb1, D1, h1⟩

/-- Lockstep of the per-directory file fold: a budget of `n` produces the
first `n` of the records the budget-free fold produces; as long as the
budget is not exhausted the two folds agree on everything else too. -/
theorem foldHandle_lock (env : Env) (base : List String) :
    ∀ (es : List Entry) (P : List String) (O : List Rec)
      (L : List (List String)) (n : Nat),
    ∃ (D : List Rec) (P' : List String),
      es.foldl (fun s e => handle_file env base e false s) ⟨P, O, none, L⟩ =
        ⟨P', O ++ D, none, L⟩ ∧
      ((D.length ≤ n ∧
        es.foldl (fun s e => handle_file env base e false s)
          ⟨P, O, some (some n), L⟩ =
          ⟨P', O ++ D, some (some (n - D.length)), L⟩) ∨
       (n < D.length ∧ ∃ Q,
        es.foldl (fun s e => handle_file env base e false s)
          ⟨P, O, some (some n), L⟩ = ⟨Q, O ++ D.take n, some (some 0), L⟩)) := by
  intro es
  induction es with
  | nil =>
    intro P O L n
    exact ⟨[], P, by simp, Or.inl ⟨by simp, by simp⟩⟩
  | cons e rest ih =>
    intro P O L n
    simp only [List.foldl_cons]
    rw [handle_file_char env base e false P O none L rfl]
    by_cases hem : emits env e false P = true
    · rw [if_pos hem]
      have hcn : budgetConsume none = none := rfl
      rw [hcn]
      cases n with
      | zero =>
        rw [handle_file_spent env base e false ⟨P, O, some (some 0), L⟩ rfl,
          foldHandle_spent env base rest ⟨P, O, some (some 0), L⟩ rfl]
        obtain ⟨D1, P', hb1, -⟩ :=
          ih (joinPath e.path :: P) (O ++ [emitRec env base e]) L 0
        refine ⟨emitRec env base e :: D1, P', ?_, Or.inr ⟨by simp, P, by simp⟩⟩
        rw [hb1, List.append_assoc]
        rfl
      | succ m =>
        rw [handle_file_char env base e false P O (some (some (m + 1))) L rfl,
          if_pos hem]
        have hcs : budgetConsume (some (some (m + 1))) = some (some m) := rfl
        rw [hcs]
        obtain ⟨D1, P', hb1, hd⟩ :=
          ih (joinPath e.path :: P) (O ++ [emitRec env base e]) L m
        refine ⟨emitRec env base e :: D1, P', ?_, ?_⟩
        · rw [hb1, List.append_assoc]
          rfl
        rcases hd with ⟨hle, ha⟩ | ⟨hlt, Q, ha⟩
        · refine Or.inl ⟨by simp; omega, ?_⟩
          rw [ha, List.append_assoc]
          simp [Nat.succ_sub_succ]
        · refine Or.inr ⟨by simp; omega, Q, ?_⟩
          rw [ha, List.append_assoc]
          simp [List.take_succ_cons]
    · rw [if_neg hem]
      cases n with
      | zero =>
        rw [handle_file_spent env base e false ⟨P, O, some (some 0), L⟩ rfl]
        exact ih P O L 0
      | succ m =>
        rw [handle_file_char env base e false P O (some (some (m + 1))) L rfl,
          if_neg hem]
        exact ih P O L (m + 1)

/-- Lockstep of the traversal loop: with budget `n` the loop writes the
first `n` of the records the budget-free loop writes; while fewer than
`n` have been written the two runs agree on state and exit, and once `n`
have been written the budgeted run holds a spent budget. -/
theorem runLoop_lock (env : Env) (base : List String) :
    ∀ (fuel : Nat) (stack : List (List String)) (P : List String)
      (O : List Rec) (L : List (List String)) (n : Nat),
    ∃ (D : List Rec) (bst : RunState) (bex : LoopExit),
      runLoop env base fuel stack ⟨P, O, none, L⟩ = (bst, bex) ∧
      bst.out = O ++ D ∧ bst.budget = none ∧
      ((D.length < n ∧
        runLoop env base fuel stack ⟨P, O, some (some n), L⟩ =
          (⟨bst.printed, O ++ D, some (some (n - D.length)), bst.listed⟩, bex)) ∨
       (n ≤ D.length ∧ ∃ ast aex,
        runLoop env base fuel stack ⟨P, O, some (some n), L⟩ = (ast, aex) ∧
        ast.out = O ++ D.take n ∧ ast.budget = some (some 0))) := by
  intro fuel
  induction fuel with
  | zero =>
    intro stack P O L n
    cases stack with
    | nil =>
      refine ⟨[], ⟨P, O, none, L⟩, .finished, rfl, by simp, rfl, ?_⟩
      cases n with
      | zero =>
        exact Or.inr ⟨le_rfl, ⟨P, O, some (some 0), L⟩, .finished, rfl,
          by simp, rfl⟩
      | succ m => exact Or.inl ⟨by simp, by simp [runLoop]⟩
    | cons c rest =>
      refine ⟨[], ⟨P, O, none, L⟩, .fuelOut, by simp [runLoop, budgetSpent],
        by simp, rfl, ?_⟩
      cases n with
      | zero =>
        exact Or.inr ⟨le_rfl, ⟨P, O, some (some 0), L⟩, .halted,
          by rw [runLoop]; rfl, by simp, rfl⟩
      | succ m =>
        exact Or.inl ⟨by simp,
          by simp [runLoop, budgetSpent, FileBudget.spent]⟩
  | succ fuel ih =>
    intro stack P O L n
    cases stack with
    | nil =>
      refine ⟨[], ⟨P, O, none, L⟩, .finished, rfl, by simp, rfl, ?_⟩
      cases n with
      | zero =>
        exact Or.inr ⟨le_rfl, ⟨P, O, some (some 0), L⟩, .finished, rfl,
          by simp, rfl⟩
      | succ m => exact Or.inl ⟨by simp, by simp [runLoop]⟩
    | cons c rest =>
      cases n with
      | zero =>
        obtain ⟨hbu, D, hD⟩ :=
          runLoop_none env base (fuel + 1) (c :: rest) ⟨P, O, none, L⟩ rfl
        refine ⟨D, (runLoop env base (fuel + 1) (c :: rest) ⟨P, O, none, L⟩).1,
          (runLoop env base (fuel + 1) (c :: rest) ⟨P, O, none, L⟩).2, rfl,
          hD, hbu,
          Or.inr ⟨Nat.zero_le _, ⟨P, O, some (some 0), L⟩, .halted, ?_,
            by simp, rfl⟩⟩
        rw [runLoop]
        rfl
      | succ m =>
        cases hld : listDir env.tree c with
        | notFound =>
          have hbrun : runLoop env base (fuel + 1) (c :: rest) ⟨P, O, none, L⟩ =
              runLoop env base fuel rest ⟨P, O, none, L ++ [c]⟩ := by
            rw [runLoop, if_neg (by simp [budgetSpent])]
            dsimp only
            rw [hld]
          have harun : runLoop env base (fuel + 1) (c :: rest)
              ⟨P, O, some (some (m + 1)), L⟩ =
              runLoop env base fuel rest ⟨P, O, some (some (m + 1)), L ++ [c]⟩ := by
            rw [runLoop, if_neg (by simp [budgetSpent, FileBudget.spent])]
            dsimp only
            rw [hld]
          rw [hbrun, harun]
          exact ih rest P O (L ++ [c]) (m + 1)
        | notADirectory =>
          have hbrun : runLoop env base (fuel + 1) (c :: rest) ⟨P, O, none, L⟩ =
              runLoop env base fuel rest (handle_file env base
                ⟨c, pathName c, .file⟩ true ⟨P, O, none, L ++ [c]⟩) := by
            rw [runLoop, if_neg (by simp [budgetSpent])]
            dsimp only
            rw [hld]
          have harun : runLoop env base (fuel + 1) (c :: rest)
              ⟨P, O, some (some (m + 1)), L⟩ =
              runLoop env base fuel rest (handle_file env base
                ⟨c, pathName c, .file⟩ true
                ⟨P, O, some (some (m + 1)), L ++ [c]⟩) := by
            rw [runLoop, if_neg (by simp [budgetSpent, FileBudget.spent])]
            dsimp only
            rw [hld]
          rw [hbrun, harun,
            handle_file_char env base ⟨c, pathName c, .file⟩ true P O none
              (L ++ [c]) rfl,
            handle_file_char env base ⟨c, pathName c, .file⟩ true P O
              (some (some (m + 1))) (L ++ [c]) rfl]
          by_cases hem : emits env ⟨c, pathName c, .file⟩ true P = true
          · rw [if_pos hem, if_pos hem]
            have hcn : budgetConsume none = none := rfl
            have hcs : budgetConsume (some (some (m + 1))) = some (some m) := rfl
            rw [hcn, hcs]
            obtain ⟨D1, bst, bex, hb1, hout1, hbud1, hd⟩ := ih rest
              (joinPath c :: P)
              (O ++ [emitRec env base ⟨c, pathName c, .file⟩]) (L ++ [c]) m
            refine ⟨emitRec env base ⟨c, pathName c, .file⟩ :: D1, bst, bex,
              hb1, ?_, hbud1, ?_⟩
            · rw [hout1, List.append_assoc]
              rfl
            rcases hd with ⟨hlt, ha⟩ | ⟨hge, ast, aex, ha, haout, habud⟩
            · refine Or.inl ⟨by simp; omega, ?_⟩
              rw [ha, List.append_assoc]
              simp [Nat.succ_sub_succ]
            · refine Or.inr ⟨by simp; omega, ast, aex, ha, ?_, habud⟩
              rw [haout, List.append_assoc]
              simp [List.take_succ_cons]
          · rw [if_neg hem, if_neg hem]
            exact ih rest P O (L ++ [c]) (m + 1)
        | entries es =>
          have hbrun : runLoop env base (fuel + 1) (c :: rest) ⟨P, O, none, L⟩ =
              runLoop env base fuel
                (((sortEntries (es.filter fun e =>
                  e.kind == NodeKind.directory)).filter fun e =>
                    !exclEntry env.cfg e).map (·.path) ++ rest)
                ((sortEntries (es.filter fun e =>
                  e.kind == NodeKind.file)).foldl
                  (fun s e => handle_file env base e false s)
                  ⟨P, O, none, L ++ [c]⟩) := by
            rw [runLoop, if_neg (by simp [budgetSpent])]
            dsimp only
            rw [hld]
          have harun : runLoop env base (fuel + 1) (c :: rest)
              ⟨P, O, some (some (m + 1)), L⟩ =
              runLoop env base fuel
                (((sortEntries (es.filter fun e =>
                  e.kind == NodeKind.directory)).filter fun e =>
                    !exclEntry env.cfg e).map (·.path) ++ rest)
                ((sortEntries (es.filter fun e =>
                  e.kind == NodeKind.file)).foldl
                  (fun s e => handle_file env base e false s)
                  ⟨P, O, some (some (m + 1)), L ++ [c]⟩) := by
            rw [runLoop, if_neg (by simp [budgetSpent, FileBudget.spent])]
            dsimp only
            rw [hld]
          rw [hbrun, harun]
          obtain ⟨Df, P', hbf, hdf⟩ := foldHandle_lock env base
            (sortEntries (es.filter fun e => e.kind == NodeKind.file))
            P O (L ++ [c]) (m + 1)
          rw [hbf]
          rcases hdf with ⟨hfle, haf⟩ | ⟨hflt, Q, haf⟩
          · rw [haf]
            obtain ⟨D2, bst, bex, hb2, hout2, hbud2, hd2⟩ := ih
              (((sortEntries (es.filter fun e =>
                e.kind == NodeKind.directory)).filter fun e =>
                  !exclEntry env.cfg e).map (·.path) ++ rest)
              P' (O ++ Df) (L ++ [c]) ((m + 1) - Df.length)
            refine ⟨Df ++ D2, bst, bex, hb2, ?_, hbud2, ?_⟩
            · rw [hout2, List.append_assoc]
            rcases hd2 with ⟨hlt2, ha2⟩ | ⟨hge2, ast, aex, ha2, haout2, habud2⟩
            · refine Or.inl ⟨by simp; omega, ?_⟩
              rw [ha2]
              simp [List.append_assoc, Nat.sub_sub]
            · refine Or.inr ⟨by simp; omega, ast, aex, ha2, ?_, habud2⟩
              rw [haout2, List.take_append_eq_append_take,
                List.take_of_length_le hfle, List.append_assoc]
          · rw [haf]
            obtain ⟨aex, haeq2⟩ := runLoop_spent env base fuel
              (((sortEntries (es.filter fun e =>
                e.kind == NodeKind.directory)).filter fun e =>
                  !exclEntry env.cfg e).map (·.path) ++ rest)
              ⟨Q, O ++ Df.take (m + 1), some (some 0), L ++ [c]⟩ rfl
            obtain ⟨hbud2, D2, hD2⟩ := runLoop_none env base fuel
              (((sortEntries (es.filter fun e =>
                e.kind == NodeKind.directory)).filter fun e =>
                  !exclEntry env.cfg e).map (·.path) ++ rest)
              ⟨P', O ++ Df, none, L ++ [c]⟩ rfl
            refine ⟨Df ++ D2,
              (runLoop env base fuel _ ⟨P', O ++ Df, none, L ++ [c]⟩).1,
              (runLoop env base fuel _ ⟨P', O ++ Df, none, L ++ [c]⟩).2, rfl,
              ?_, hbud2,
              Or.inr ⟨by simp; omega,
                ⟨Q, O ++ Df.take (m + 1), some (some 0), L ++ [c]⟩, aex,
                haeq2, ?_, rfl⟩⟩
            · rw [hD2]
              dsimp only
              rw [List.append_assoc]
            · have hz : (m + 1) - Df.length = 0 := by omega
              rw [List.take_append_eq_append_take, hz]
              simp

/-- Lockstep of the roots loop: with budget `n` the whole invocation
writes exactly the first `n` of the records the budget-free invocation
writes. -/
theorem runRoots_lock (env : Env) (fuel : Nat) :
    ∀ (roots : List (List String)) (P : List String) (O : List Rec)
      (L : List (List String)) (n : Nat),
    ∃ (D : List Rec) (bst : RunState),
      runRoots env fuel roots ⟨P, O, none, L⟩ = bst ∧
      bst.out = O ++ D ∧ bst.budget = none ∧
      ((D.length < n ∧
        runRoots env fuel roots ⟨P, O, some (some n), L⟩ =
          ⟨bst.printed, O ++ D, some (some (n - D.length)), bst.listed⟩) ∨
       (n ≤ D.length ∧ ∃ ast,
        runRoots env fuel roots ⟨P, O, some (some n), L⟩ = ast ∧
        ast.out = O ++ D.take n ∧ ast.budget = some (some 0))) := by
  intro roots
  induction roots with
  | nil =>
    intro P O L n
    refine ⟨[], ⟨P, O, none, L⟩, rfl, by simp, rfl, ?_⟩
    cases n with
    | zero =>
      exact Or.inr ⟨by simp, ⟨P, O, some (some 0), L⟩, rfl, by simp, rfl⟩
    | succ m => exact Or.inl ⟨by simp, by simp [runRoots]⟩
  | cons r rest ih =>
    intro P O L n
    cases n with
    | zero =>
      obtain ⟨hbud, D, hD⟩ := runRoots_none env fuel (r :: rest)
        ⟨P, O, none, L⟩ rfl
      exact ⟨D, runRoots env fuel (r :: rest) ⟨P, O, none, L⟩, rfl, hD, hbud,
        Or.inr ⟨Nat.zero_le _, ⟨P, O, some (some 0), L⟩,
          runRoots_spent env fuel (r :: rest) _ rfl, by simp, rfl⟩⟩
    | succ m =>
      obtain ⟨D1, bst1, bex1, hb1, hout1, hbud1, hd1⟩ :=
        runLoop_lock env r fuel [r] P O L (m + 1)
      obtain ⟨p1, o1, b1, l1⟩ := bst1
      simp only at hout1 hbud1
      subst hout1
      subst hbud1
      rcases hd1 with ⟨hlt1, haeq1⟩ | ⟨hge1, ast1, aex1, haeq1, haout1, habud1⟩
      · cases bex1 with
        | finished =>
          have hastep : runRoots env fuel (r :: rest)
              ⟨P, O, some (some (m + 1)), L⟩ = runRoots env fuel rest
                ⟨p1, O ++ D1, some (some ((m + 1) - D1.length)), l1⟩ := by
            rw [runRoots, if_neg (by simp [budgetSpent, FileBudget.spent])]
            dsimp only
            rw [haeq1]
          have hbstep : runRoots env fuel (r :: rest) ⟨P, O, none, L⟩ =
              runRoots env fuel rest ⟨p1, O ++ D1, none, l1⟩ := by
            rw [runRoots, if_neg (by simp [budgetSpent])]
            dsimp only
            rw [hb1]
          obtain ⟨D2, bst2, hb2, hout2, hbud2, hd2⟩ :=
            ih p1 (O ++ D1) l1 ((m + 1) - D1.length)
          refine ⟨D1 ++ D2, bst2, by rw [hbstep]; exact hb2, ?_, hbud2, ?_⟩
          · rw [hout2, List.append_assoc]
          rcases hd2 with ⟨hlt2, ha2⟩ | ⟨hge2, ast2, ha2, haout2, habud2⟩
          · refine Or.inl ⟨by simp; omega, ?_⟩
            rw [hastep, ha2]
            simp [List.append_assoc, Nat.sub_sub]
          · refine Or.inr ⟨by simp; omega, ast2, ?_, ?_, habud2⟩
            · rw [hastep]
              exact ha2
            · rw [haout2, List.take_append_eq_append_take,
                List.take_of_length_le (le_of_lt hlt1), List.append_assoc]
        | halted =>
          have hastep : runRoots env fuel (r :: rest)
              ⟨P, O, some (some (m + 1)), L⟩ =
              ⟨p1, O ++ D1, some (some ((m + 1) - D1.length)), l1⟩ := by
            rw [runRoots, if_neg (by simp [budgetSpent, FileBudget.spent])]
            dsimp only
            rw [haeq1]
          have hbstep : runRoots env fuel (r :: rest) ⟨P, O, none, L⟩ =
              ⟨p1, O ++ D1, none, l1⟩ := by
            rw [runRoots, if_neg (by simp [budgetSpent])]
            dsimp only
            rw [hb1]
          exact ⟨D1, ⟨p1, O ++ D1, none, l1⟩, hbstep, rfl, rfl,
            Or.inl ⟨hlt1, hastep⟩⟩
        | fuelOut =>
          have hastep : runRoots env fuel (r :: rest)
              ⟨P, O, some (some (m + 1)), L⟩ =
              ⟨p1, O ++ D1, some (some ((m + 1) - D1.length)), l1⟩ := by
            rw [runRoots, if_neg (by simp [budgetSpent, FileBudget.spent])]
            dsimp only
            rw [haeq1]
          have hbstep : runRoots env fuel (r :: rest) ⟨P, O, none, L⟩ =
              ⟨p1, O ++ D1, none, l1⟩ := by
            rw [runRoots, if_neg (by simp [budgetSpent])]
            dsimp only
            rw [hb1]
          exact ⟨D1, ⟨p1, O ++ D1, none, l1⟩, hbstep, rfl, rfl,
            Or.inl ⟨hlt1, hastep⟩⟩
      · have hastep : runRoots env fuel (r :: rest)
            ⟨P, O, some (some (m + 1)), L⟩ = ast1 := by
          rw [runRoots, if_neg (by simp [budgetSpent, FileBudget.spent])]
          dsimp only
          rw [haeq1]
          cases aex1 with
          | finished =>
            dsimp only
            exact runRoots_spent env fuel rest ast1 (by rw [habud1]; rfl)
          | halted => rfl
          | fuelOut => rfl
        cases bex1 with
        | finished =>
          have hbstep : runRoots env fuel (r :: rest) ⟨P, O, none, L⟩ =
              runRoots env fuel rest ⟨p1, O ++ D1, none, l1⟩ := by
            rw [runRoots, if_neg (by simp [budgetSpent])]
            dsimp only
            rw [hb1]
          obtain ⟨hbud2, D2, hD2⟩ := runRoots_none env fuel rest
            ⟨p1, O ++ D1, none, l1⟩ rfl
          refine ⟨D1 ++ D2, runRoots env fuel rest ⟨p1, O ++ D1, none, l1⟩,
            hbstep, ?_, hbud2,
            Or.inr ⟨by simp; omega, ast1, hastep, ?_, habud1⟩⟩
          · rw [hD2]
            dsimp only
            rw [List.append_assoc]
          · have hz : (m + 1) - D1.length = 0 := by omega
            rw [haout1, List.take_append_eq_append_take, hz]
            simp
        | halted =>
          have hbstep : runRoots env fuel (r :: rest) ⟨P, O, none, L⟩ =
              ⟨p1, O ++ D1, none, l1⟩ := by
            rw [runRoots, if_neg (by simp [budgetSpent])]
            dsimp only
            rw [hb1]
          exact ⟨D1, ⟨p1, O ++ D1, none, l1⟩, hbstep, rfl, rfl,
            Or.inr ⟨hge1, ast1, hastep, haout1, habud1⟩⟩
        | fuelOut =>
          have hbstep : runRoots env fuel (r :: rest) ⟨P, O, none, L⟩ =
              ⟨p1, O ++ D1, none, l1⟩ := by
            rw [runRoots, if_neg (by simp [budgetSpent])]
            dsimp only
            rw [hb1]
          exact ⟨D1, ⟨p1, O ++ D1, none, l1⟩, hbstep, rfl, rfl,
            Or.inr ⟨hge1, ast1, hastep, haout1, habud1⟩⟩

/-- C3: budget exactness.  A run with budget `K` writes exactly the first
`K` records of the budget-free run (so with `N` matching files and
`K < N`, exactly `K` records); once the budget is spent `_handle_file`
writes nothing — even mid-directory — and the roots loop traverses no
further root; and `FileBudget(K)` for a positive `K` is the counter that
permits `K` consumptions. -/
theorem claim_C3 :
    (∀ (env : Env) (fuel : Nat) (roots : List (List String)) (K : Nat),
      (run env fuel roots (some (some K))).out =
        ((run env fuel roots none).out).take K) ∧
    (∀ (env : Env) (fuel : Nat) (roots : List (List String)) (K : Nat),
      K < (run env fuel roots none).out.length →
      (run env fuel roots (some (some K))).out.length = K) ∧
    (∀ (env : Env) (base : List String) (e : Entry) (force : Bool)
      (st : RunState), budgetSpent st.budget = true →
      handle_file env base e force st = st) ∧
    (∀ (env : Env) (fuel : Nat) (roots : List (List String)) (st : RunState),
      budgetSpent st.budget = true → runRoots env fuel roots st = st) ∧
    (∀ K : Int, 0 < K → FileBudget.make (some K) = some K.toNat) := by
  have h1 : ∀ (env : Env) (fuel : Nat) (roots : List (List String)) (K : Nat),
      (run env fuel roots (some (some K))).out =
        ((run env fuel roots none).out).take K := by
    intro env fuel roots K
    obtain ⟨D, bst, hb, hout, -, hd⟩ := runRoots_lock env fuel roots [] [] [] K
    unfold run
    rcases hd with ⟨hlt, ha⟩ | ⟨hge, ast, ha, haout, -⟩
    · rw [ha, hb, hout]
      simp [List.take_of_length_le (le_of_lt hlt)]
    · rw [ha, haout, hb, hout]
      simp
  refine ⟨h1, ?_, handle_file_spent, runRoots_spent, ?_⟩
  · intro env fuel roots K hK
    rw [h1 env fuel roots K, List.length_take]
    omega
  · intro K hK
    unfold FileBudget.make
    dsimp only
    rw [if_pos hK]

theorem claim_C3_witness :
    1 < (run ⟨⟨true, true, [], []⟩, FSNode.dir [("a.py", FSNode.file [104]),
      ("b.py", FSNode.file [105])], fun _ => none⟩ 5 [[]] none).out.length ∧
    (run ⟨⟨true, true, [], []⟩, FSNode.dir [("a.py", FSNode.file [104]),
      ("b.py", FSNode.file [105])], fun _ => none⟩ 5 [[]]
      (some (some 1))).out.length = 1 :=
  ⟨by decide,
    claim_C3.2.1 ⟨⟨true, true, [], []⟩, FSNode.dir [("a.py", FSNode.file [104]),
      ("b.py", FSNode.file [105])], fun _ => none⟩ 5 [[]] 1 (by decide)⟩

/-! ## Forced entries and the default extension filter (toward claim C4) -/

/-- `defaults.DEFAULT_SUPPORTED_EXTENSIONS`. -/
def DEFAULT_SUPPORTED_EXTENSIONS : List String :=
  [".py", ".ts", ".tsx", ".json", ".json*", ".html", ".ini", ".toml",
   ".yaml", ".yml", ".sh", ".zsh"]

/-- `defaults.DEFAULT_DOC_EXTENSIONS`. -/
def DEFAULT_DOC_EXTENSIONS : List String := [".md", ".rst", ".mdx"]

/-- `filters.resolve_extensions(custom_extensions=..., no_docs=...)`. -/
def resolve_extensions (custom_extensions : List String)
    (no_docs : Bool) : List String :=
  if custom_extensions.isEmpty then
    DEFAULT_SUPPORTED_EXTENSIONS ++
      (if no_docs then [] else DEFAULT_DOC_EXTENSIONS)
  else custom_extensions

/-- The loop treats a stack entry that `list_dir` reports as
`NotADirectory` as a forced single-file entry. -/
theorem runLoop_forced_step (env : Env) (base : List String) (fuel : Nat)
    (current : List String) (rest : List (List String)) (st : RunState)
    (hb : budgetSpent st.budget = false)
    (hld : listDir env.tree current = ListDirResult.notADirectory) :
    runLoop env base (fuel + 1) (current :: rest) st =
      runLoop env base fuel rest (handle_file env base
        ⟨current, pathName current, .file⟩ true
        ⟨st.printed, st.out, st.budget, st.listed ++ [current]⟩) := by
  rw [runLoop, if_neg (by simp [hb])]
  dsimp only
  rw [hld]

/-- A forced call emits no matter what the exclusion rules, extension
filters and emptiness classifier say, provided the key is new and the
budget unspent. -/
theorem handle_file_forced (env : Env) (base : List String) (e : Entry)
    (st : RunState) (hnm : joinPath e.path ∉ st.printed)
    (hb : budgetSpent st.budget = false) :
    ∃ r : Rec, r.epath = e.path ∧
      handle_file env base e true st =
        ⟨joinPath e.path :: st.printed, st.out ++ [r],
          budgetConsume st.budget, st.listed⟩ := by
  rcases handle_file_spec env base e true st with ⟨-, hr⟩ | ⟨-, -, -, r, hre, heq⟩
  · rcases hr with h | h | ⟨h, -⟩
    · exact absurd h hnm
    · rw [hb] at h
      exact Bool.noConfusion h
    · exact Bool.noConfusion h
  · exact ⟨r, hre, heq⟩

/-- Any one failed check blocks a non-forced emission. -/
theorem handle_file_gate (env : Env) (base : List String) (e : Entry)
    (st : RunState)
    (hblock : exclEntry env.cfg e = true ∨
      extension_match env.cfg.extensions e.name = false ∨
      (env.cfg.include_empty = false ∧
        fsIsEmpty env.parse env.tree e.path = true)) :
    handle_file env base e false st = st := by
  by_cases hb : budgetSpent st.budget = true
  · exact handle_file_spent env base e false st hb
  · obtain ⟨P, O, bb, L⟩ := st
    have hem : emits env e false P = false := by
      unfold emits
      rcases hblock with h | h | ⟨h1, h2⟩
      · simp [h]
      · simp [h]
      · simp [h1, h2]
    rw [handle_file_char env base e false P O bb L (by simpa using hb),
      if_neg (by simp [hem])]

/-- C4: a root reported `NotADirectory` by the adapter is handled as a
forced entry, and a forced call emits exactly one record no matter what
the exclusion rules, the extension filter and the emptiness classifier
say — unless its path key was already printed in this run (then it is a
no-op) or the budget is spent; a non-forced (traversal-encountered) call
is blocked by any failed check; and the extensionless name `LICENSE`
fails the default extension filter, so under default settings it is only
emitted when the extensionless sentinel is added to the filter. -/
theorem claim_C4 :
    (∀ (env : Env) (base : List String) (fuel : Nat) (current : List String)
      (rest : List (List String)) (st : RunState),
      budgetSpent st.budget = false →
      listDir env.tree current = ListDirResult.notADirectory →
      runLoop env base (fuel + 1) (current :: rest) st =
        runLoop env base fuel rest (handle_file env base
          ⟨current, pathName current, .file⟩ true
          ⟨st.printed, st.out, st.budget, st.listed ++ [current]⟩)) ∧
    (∀ (env : Env) (base : List String) (e : Entry) (st : RunState),
      joinPath e.path ∉ st.printed → budgetSpent st.budget = false →
      ∃ r : Rec, r.epath = e.path ∧
        handle_file env base e true st =
          ⟨joinPath e.path :: st.printed, st.out ++ [r],
            budgetConsume st.budget, st.listed⟩) ∧
    (∀ (env : Env) (base : List String) (e : Entry) (st : RunState),
      joinPath e.path ∈ st.printed → handle_file env base e true st = st) ∧
    (∀ (env : Env) (base : List String) (e : Entry) (st : RunState),
      exclEntry env.cfg e = true ∨
      extension_match env.cfg.extensions e.name = false ∨
      (env.cfg.include_empty = false ∧
        fsIsEmpty env.parse env.tree e.path = true) →
      handle_file env base e false st = st) ∧
    extension_match (resolve_extensions [] false) "LICENSE" = false ∧
    extension_match (resolve_extensions [] false ++ [EXTENSIONLESS_SENTINEL])
      "LICENSE" = true := by
  refine ⟨runLoop_forced_step, handle_file_forced, ?_, handle_file_gate,
    ?_, ?_⟩
  · intro env base e st hmem
    have hc : st.printed.contains (joinPath e.path) = true := by
      simpa [List.contains, List.elem_iff] using hmem
    unfold handle_file
    rw [if_pos hc]
  · unfold extension_match
    rw [if_neg (by decide)]
    rw [List.any_eq_false]
    intro pattern hmem
    have hmem' : pattern ∈ ([".py", ".ts", ".tsx", ".json", ".json*",
        ".html", ".ini", ".toml", ".yaml", ".yml", ".sh", ".zsh", ".md",
        ".rst", ".mdx"] : List String) := by
      simpa [resolve_extensions, DEFAULT_SUPPORTED_EXTENSIONS,
        DEFAULT_DOC_EXTENSIONS] using hmem
    fin_cases hmem' <;>
      first
        | decide
        | (rw [if_pos (by decide)]; simp [fnmatch, globMatch])
  · unfold extension_match
    rw [if_neg (by decide)]
    rw [List.any_eq_true]
    exact ⟨EXTENSIONLESS_SENTINEL, by decide, by decide⟩

theorem claim_C4_witness :
    exclEntry ⟨false, true, [".py"], [Exclusion.str "LICENSE"]⟩
      ⟨["LICENSE"], "LICENSE", NodeKind.file⟩ = true ∧
    joinPath ["LICENSE"] ∉ ([] : List String) ∧
    budgetSpent none = false ∧
    ∃ r : Rec, r.epath = ["LICENSE"] ∧
      handle_file ⟨⟨false, true, [".py"], [Exclusion.str "LICENSE"]⟩,
        FSNode.dir [], fun _ => none⟩ [] ⟨["LICENSE"], "LICENSE",
        NodeKind.file⟩ true ⟨[], [], none, []⟩ =
        ⟨[joinPath ["LICENSE"]], [] ++ [r], budgetConsume none, []⟩ :=
  ⟨by decide, by decide, by decide,
    claim_C4.2.1 ⟨⟨false, true, [".py"], [Exclusion.str "LICENSE"]⟩,
      FSNode.dir [], fun _ => none⟩ [] ⟨["LICENSE"], "LICENSE",
      NodeKind.file⟩ ⟨[], [], none, []⟩ (by decide) (by decide)⟩

/-! ## The realized traversal order (toward claim C1) -/

theorem lookup_snoc (x : String) :
    ∀ (tree : FSNode) (p : List String) (cs : List (String × FSNode)),
    lookup tree p = some (FSNode.dir cs) →
    lookup tree (p ++ [x]) = assocChild cs x := by
  intro tree p
  induction p generalizing tree with
  | nil =>
    intro cs h
    cases tree with
    | file bs =>
      rw [lookup.eq_def] at h
      simp at h
    | other =>
      rw [lookup.eq_def] at h
      simp at h
    | dir cs0 =>
      rw [lookup.eq_def] at h
      simp only [Option.some.injEq, FSNode.dir.injEq] at h
      subst h
      show lookup (FSNode.dir cs0) ([] ++ [x]) = assocChild cs0 x
      rw [List.nil_append, lookup.eq_def]
      try dsimp only
      cases hac : assocChild cs0 x with
      | none => rfl
      | some c => cases c <;> rfl
  | cons a p' ih =>
    intro cs h
    cases tree with
    | file bs =>
      rw [lookup.eq_def] at h
      simp at h
    | other =>
      rw [lookup.eq_def] at h
      simp at h
    | dir cs0 =>
      rw [lookup.eq_def] at h
      try dsimp only at h
      show lookup (FSNode.dir cs0) ((a :: p') ++ [x]) = assocChild cs x
      rw [List.cons_append, lookup.eq_def]
      try dsimp only
      cases hac : assocChild cs0 a with
      | none =>
        rw [hac] at h
        simp at h
      | some c =>
        rw [hac] at h
        try dsimp only at h
        show lookup c (p' ++ [x]) = assocChild cs x
        exact ih c cs h

theorem childEntries_name (p : List String) (cs : List (String × FSNode))
    (e : Entry) (h : e ∈ childEntries p cs) : e.path = p ++ [e.name] := by
  unfold childEntries at h
  rw [List.mem_map] at h
  obtain ⟨nc, -, heq⟩ := h
  rw [← heq]

theorem keptDirs_name (cfg : Config) (p : List String)
    (cs : List (String × FSNode)) (e : Entry) (h : e ∈ keptDirs cfg p cs) :
    e.path = p ++ [e.name] := by
  unfold keptDirs at h
  have h1 := (List.mem_filter.mp h).1
  rw [mem_sortEntries] at h1
  exact childEntries_name p cs e (List.mem_filter.mp h1).1

theorem refFold_nil (env : Env) (base : List String)
    (cs : List (String × FSNode)) (st : RunState) :
    refFold env base cs [] st = st := by
  rw [refFold]

theorem refFold_cons_some (env : Env) (base : List String)
    (cs : List (String × FSNode)) (e : Entry) (l : List Entry)
    (st : RunState) (c : FSNode) (hac : assocChild cs e.name = some c) :
    refFold env base cs (e :: l) st =
      refFold env base cs l (refVisit env base c e.path st) := by
  rw [refFold]
  split
  · rename_i c' heq
    rw [hac] at heq
    injection heq with h2
    rw [h2]
  · rename_i heq
    rw [hac] at heq
    cases heq

theorem refFold_cons_none (env : Env) (base : List String)
    (cs : List (String × FSNode)) (e : Entry) (l : List Entry)
    (st : RunState) (hac : assocChild cs e.name = none) :
    refFold env base cs (e :: l) st =
      refFold env base cs l
        ⟨st.printed, st.out, st.budget, st.listed ++ [e.path]⟩ := by
  rw [refFold]
  split
  · rename_i c' heq
    rw [hac] at heq
    cases heq
  · rfl

theorem popsFold_nil (env : Env) (cs : List (String × FSNode)) :
    popsFold env cs [] = 0 := by
  rw [popsFold]

theorem popsFold_cons_some (env : Env) (cs : List (String × FSNode))
    (e : Entry) (l : List Entry) (c : FSNode)
    (hac : assocChild cs e.name = some c) :
    popsFold env cs (e :: l) = popsVisit env c e.path + popsFold env cs l := by
  rw [popsFold]
  split
  · rename_i c' heq
    rw [hac] at heq
    injection heq with h2
    rw [h2]
  · rename_i heq
    rw [hac] at heq
    cases heq

theorem popsFold_cons_none (env : Env) (cs : List (String × FSNode))
    (e : Entry) (l : List Entry) (hac : assocChild cs e.name = none) :
    popsFold env cs (e :: l) = 1 + popsFold env cs l := by
  rw [popsFold]
  split
  · rename_i c' heq
    rw [hac] at heq
    cases heq
  · rfl

theorem popsVisit_dir (env : Env) (cs : List (String × FSNode))
    (p : List String) :
    popsVisit env (FSNode.dir cs) p =
      1 + popsFold env cs (keptDirs env.cfg p cs) := by
  rw [popsVisit]

theorem refVisit_dir (env : Env) (base : List String)
    (cs : List (String × FSNode)) (p : List String) (st : RunState) :
    refVisit env base (FSNode.dir cs) p st =
      refFold env base cs (keptDirs env.cfg p cs)
        ((sortEntries ((childEntries p cs).filter fun e =>
          e.kind == NodeKind.file)).foldl
          (fun s e => handle_file env base e false s)
          ⟨st.printed, st.out, st.budget, st.listed ++ [p]⟩) := by
  rw [refVisit]

theorem refVisit_file (env : Env) (base : List String) (bs : List Nat)
    (p : List String) (st : RunState) :
    refVisit env base (FSNode.file bs) p st =
      handle_file env base ⟨p, pathName p, .file⟩ true
        ⟨st.printed, st.out, st.budget, st.listed ++ [p]⟩ := by
  rw [refVisit]

theorem refVisit_other (env : Env) (base : List String)
    (p : List String) (st : RunState) :
    refVisit env base FSNode.other p st =
      handle_file env base ⟨p, pathName p, .file⟩ true
        ⟨st.printed, st.out, st.budget, st.listed ++ [p]⟩ := by
  rw [refVisit]

theorem runLoop_nilstack (env : Env) (base : List String) (g : Nat)
    (st : RunState) : runLoop env base g [] st = (st, .finished) := by
  cases g <;> rfl

/-- With exactly the fuel the subtree needs, the loop started on a
resolvable path realizes the reference visit of that subtree and then
continues with the rest of the stack; the reference visit keeps a `none`
budget absent. -/
theorem loop_ref (env : Env) (base : List String) :
    ∀ n : Nat, ∀ (t : FSNode) (p : List String) (st : RunState)
      (rest : List (List String)) (f : Nat), nodeSize t ≤ n →
      lookup env.tree p = some t → st.budget = none →
      runLoop env base (popsVisit env t p + f) (p :: rest) st =
        runLoop env base f rest (refVisit env base t p st) ∧
      (refVisit env base t p st).budget = none := by
  intro n
  induction n using Nat.strong_induction_on with
  | _ n ih =>
    intro t p st rest f hsize hlk hbud
    cases t with
    | file bs =>
      have hld : listDir env.tree p = ListDirResult.notADirectory := by
        unfold listDir
        rw [hlk]
      have harith : popsVisit env (FSNode.file bs) p + f = f + 1 := by
        rw [show popsVisit env (FSNode.file bs) p = 1 from by rw [popsVisit]]
        omega
      constructor
      · rw [harith, runLoop, if_neg (by simp [hbud, budgetSpent])]
        dsimp only
        rw [hld, refVisit_file]
      · rw [refVisit_file]
        exact (handle_file_none env base ⟨p, pathName p, .file⟩ true
          ⟨st.printed, st.out, st.budget, st.listed ++ [p]⟩ hbud).1
    | other =>
      have hld : listDir env.tree p = ListDirResult.notADirectory := by
        unfold listDir
        rw [hlk]
      have harith : popsVisit env FSNode.other p + f = f + 1 := by
        rw [show popsVisit env FSNode.other p = 1 from by rw [popsVisit]]
        omega
      constructor
      · rw [harith, runLoop, if_neg (by simp [hbud, budgetSpent])]
        dsimp only
        rw [hld, refVisit_other]
      · rw [refVisit_other]
        exact (handle_file_none env base ⟨p, pathName p, .file⟩ true
          ⟨st.printed, st.out, st.budget, st.listed ++ [p]⟩ hbud).1
    | dir cs =>
      have hld : listDir env.tree p = .entries (childEntries p cs) := by
        unfold listDir
        rw [hlk]
      have hsub : pairsSize cs < n := by
        have h1 : nodeSize (FSNode.dir cs) = 1 + pairsSize cs := by
          rw [nodeSize]
        omega
      have hfold : ∀ (l : List Entry), (∀ e ∈ l, e ∈ keptDirs env.cfg p cs) →
          ∀ (st' : RunState) (rest' : List (List String)) (f' : Nat),
          st'.budget = none →
          runLoop env base (popsFold env cs l + f')
              (l.map (·.path) ++ rest') st' =
            runLoop env base f' rest' (refFold env base cs l st') ∧
          (refFold env base cs l st').budget = none := by
        intro l
        induction l with
        | nil =>
          intro _ st' rest' f' hb'
          constructor
          · rw [popsFold_nil]
            simp only [Nat.zero_add, List.map_nil, List.nil_append]
            rw [refFold_nil]
          · rw [refFold_nil]
            exact hb'
        | cons e l' ihl =>
          intro hmem st' rest' f' hb'
          have hme : e ∈ keptDirs env.cfg p cs := hmem e (by simp)
          have hep : e.path = p ++ [e.name] := keptDirs_name env.cfg p cs e hme
          have hlke : lookup env.tree e.path = assocChild cs e.name := by
            rw [hep]
            exact lookup_snoc e.name env.tree p cs hlk
          have hmem' : ∀ e' ∈ l', e' ∈ keptDirs env.cfg p cs :=
            fun e' he' => hmem e' (by simp [he'])
          cases hac : assocChild cs e.name with
          | some c =>
            have hlkc : lookup env.tree e.path = some c := by rw [hlke, hac]
            have hszc : nodeSize c ≤ pairsSize cs :=
              assocChild_size cs e.name c hac
            have houter := ih (pairsSize cs) hsub c e.path st'
              (l'.map (·.path) ++ rest') (popsFold env cs l' + f') hszc
              hlkc hb'
            constructor
            · rw [popsFold_cons_some env cs e l' c hac, Nat.add_assoc]
              simp only [List.map_cons, List.cons_append]
              rw [houter.1, refFold_cons_some env base cs e l' st' c hac]
              exact (ihl hmem' (refVisit env base c e.path st') rest' f'
                houter.2).1
            · rw [refFold_cons_some env base cs e l' st' c hac]
              exact (ihl hmem' (refVisit env base c e.path st') rest' f'
                houter.2).2
          | none =>
            have hldn : listDir env.tree e.path = .notFound := by
              unfold listDir
              rw [hlke, hac]
            constructor
            · rw [popsFold_cons_none env cs e l' hac]
              rw [show 1 + popsFold env cs l' + f' =
                (popsFold env cs l' + f') + 1 from by omega]
              simp only [List.map_cons, List.cons_append]
              rw [runLoop, if_neg (by simp [hb', budgetSpent])]
              dsimp only
              rw [hldn, refFold_cons_none env base cs e l' st' hac]
              exact (ihl hmem'
                ⟨st'.printed, st'.out, st'.budget, st'.listed ++ [e.path]⟩
                rest' f' hb').1
            · rw [refFold_cons_none env base cs e l' st' hac]
              exact (ihl hmem'
                ⟨st'.printed, st'.out, st'.budget, st'.listed ++ [e.path]⟩
                rest' f' hb').2
      have hFbud : ((sortEntries ((childEntries p cs).filter fun e =>
          e.kind == NodeKind.file)).foldl
          (fun s e => handle_file env base e false s)
          ⟨st.printed, st.out, st.budget, st.listed ++ [p]⟩).budget = none :=
        (foldHandle_none env base
          (sortEntries ((childEntries p cs).filter fun e =>
            e.kind == NodeKind.file))
          ⟨st.printed, st.out, st.budget, st.listed ++ [p]⟩ hbud).1
      constructor
      · rw [show popsVisit env (FSNode.dir cs) p + f =
          (popsFold env cs (keptDirs env.cfg p cs) + f) + 1 from by
            rw [popsVisit_dir]; omega]
        rw [runLoop, if_neg (by simp [hbud, budgetSpent])]
        dsimp only
        rw [hld, refVisit_dir]
        exact (hfold (keptDirs env.cfg p cs) (fun e he => he) _ rest f
          hFbud).1
      · rw [refVisit_dir]
        exact (hfold (keptDirs env.cfg p cs) (fun e he => he) _ rest f
          hFbud).2

/-- With enough fuel for every root and no budget, the roots loop
realizes the reference run. -/
theorem runRoots_ref (env : Env) (fuel : Nat) :
    ∀ (roots : List (List String)) (st : RunState), st.budget = none →
    (∀ r ∈ roots, rootPops env r ≤ fuel) →
    runRoots env fuel roots st = refRun env roots st := by
  intro roots
  induction roots with
  | nil => intro st _ _; rfl
  | cons r rest ihr =>
    intro st hbud hfuel
    have hrest : ∀ q ∈ rest, rootPops env q ≤ fuel :=
      fun q hq => hfuel q (by simp [hq])
    rw [runRoots, if_neg (by simp [hbud, budgetSpent])]
    dsimp only
    cases hlk : lookup env.tree r with
    | some t =>
      have hpl : rootPops env r = popsVisit env t r := by
        unfold rootPops
        rw [hlk]
      have hfe : fuel = popsVisit env t r + (fuel - popsVisit env t r) := by
        have := hfuel r (by simp)
        rw [hpl] at this
        omega
      have hloop := loop_ref env r (nodeSize t) t r st []
        (fuel - popsVisit env t r) le_rfl hlk hbud
      have hres : runLoop env r fuel [r] st =
          (refVisit env r t r st, .finished) := by
        conv_lhs => rw [hfe]
        rw [hloop.1, runLoop_nilstack]
      rw [hres]
      dsimp only
      have hrefstep : refRun env (r :: rest) st =
          refRun env rest (refVisit env r t r st) := by
        unfold refRun
        rw [List.foldl_cons]
        unfold refRoot
        rw [hlk]
      rw [hrefstep]
      exact ihr (refVisit env r t r st) hloop.2 hrest
    | none =>
      have hldn : listDir env.tree r = .notFound := by
        unfold listDir
        rw [hlk]
      have hres : runLoop env r fuel [r] st =
          (⟨st.printed, st.out, st.budget, st.listed ++ [r]⟩, .finished) := by
        obtain ⟨g, hg⟩ : ∃ g, fuel = g + 1 := by
          have hthis := hfuel r (by simp)
          rw [show rootPops env r = 1 from by
            unfold rootPops; rw [hlk]] at hthis
          exact ⟨fuel - 1, by omega⟩
        rw [hg, runLoop, if_neg (by simp [hbud, budgetSpent])]
        dsimp only
        rw [hldn]
        show runLoop env r g []
            ⟨st.printed, st.out, st.budget, st.listed ++ [r]⟩ =
          (⟨st.printed, st.out, st.budget, st.listed ++ [r]⟩, .finished)
        exact runLoop_nilstack env r g _
      rw [hres]
      dsimp only
      have hrefstep : refRun env (r :: rest) st =
          refRun env rest
            ⟨st.printed, st.out, st.budget, st.listed ++ [r]⟩ := by
        unfold refRun
        rw [List.foldl_cons]
        unfold refRoot
        rw [hlk]
      rw [hrefstep]
      exact ihr ⟨st.printed, st.out, st.budget, st.listed ++ [r]⟩ hbud hrest

/-- C1 (amended): with enough fuel, a budget-free run realizes exactly
the reference traversal `refRun`: roots strictly in the order given, each
to exhaustion before the next starts; at each directory the siblings are
emitted in case-insensitive lexicographic name order, the directory's own
files FIRST and only then each non-excluded subdirectory's entire subtree
(depth-first, not breadth-first).  The spec's "directories before files"
does not hold — see the counterexample. -/
theorem claim_C1 (env : Env) (fuel : Nat) (roots : List (List String))
    (hfuel : ∀ r ∈ roots, rootPops env r ≤ fuel) :
    run env fuel roots none = refRun env roots ⟨[], [], none, []⟩ :=
  runRoots_ref env fuel roots ⟨[], [], none, []⟩ rfl hfuel

/-- The tree for the C1 counterexample: a directory `a` (holding
`a/x.py`) and a file `b.py` side by side. -/
def envC1 : Env :=
  ⟨⟨true, true, [], []⟩,
    FSNode.dir [("a", FSNode.dir [("x.py", FSNode.file [104])]),
      ("b.py", FSNode.file [105])],
    fun _ => none⟩

/-- C1 counterexample to "directories before files": `a` sorts before
`b.py` case-insensitively, yet the parent's own file `b.py` is emitted
before the subtree of the subdirectory `a`. -/
theorem claim_C1_counterexample :
    leChars (lowerList "a".toList) (lowerList "b.py".toList) = true ∧
    (run envC1 5 [[]] none).out =
      [Rec.header ["b.py"] "b.py", Rec.header ["a", "x.py"] "a/x.py"] := by
  constructor
  · decide
  · decide

theorem claim_C1_witness :
    (∀ r ∈ [([] : List String)], rootPops envC1 r ≤ 5) ∧
      run envC1 5 [[]] none = refRun envC1 [[]] ⟨[], [], none, []⟩ := by
  have hfuel : ∀ r ∈ [([] : List String)], rootPops envC1 r ≤ 5 := by
    intro r hr
    rw [List.mem_singleton] at hr
    subst hr
    rw [show rootPops envC1 [] =
        popsVisit envC1 (FSNode.dir [("a", FSNode.dir [("x.py",
          FSNode.file [104])]), ("b.py", FSNode.file [105])]) [] from rfl]
    rw [popsVisit_dir]
    rw [show keptDirs envC1.cfg [] [("a", FSNode.dir [("x.py",
        FSNode.file [104])]), ("b.py", FSNode.file [105])] =
      [⟨["a"], "a", NodeKind.directory⟩] from by decide]
    rw [popsFold_cons_some envC1
      [("a", FSNode.dir [("x.py", FSNode.file [104])]),
        ("b.py", FSNode.file [105])]
      ⟨["a"], "a", NodeKind.directory⟩ []
      (FSNode.dir [("x.py", FSNode.file [104])]) rfl]
    rw [popsFold_nil, popsVisit_dir]
    rw [show keptDirs envC1.cfg ["a"] [("x.py", FSNode.file [104])] =
      [] from by decide]
    rw [popsFold_nil]
    omega
  exact ⟨hfuel, claim_C1 envC1 5 [[]] hfuel⟩

/-! ## Claim C6: the emptiness classifier -/

/-- C6 (amended): `is_text_semantically_empty` is a total boolean
function and is true exactly when the stripped text is empty or the text
parses with every top-level statement boilerplate (a failed parse
therefore yields false), where per statement: imports, ANY assignment —
the source's single-`__all__`-target guard has no `else`, so a failed
guard falls through and the loop continues — and bare string-literal
expressions are boilerplate, while any other expression statement or
construct is not; and `is_blob_semantically_empty` is false on every
non-text blob (one containing a NUL byte or failing strict UTF-8
decoding). -/
theorem claim_C6 :
    (∀ (parse : PyParse) (text : String),
      is_text_semantically_empty parse text = true ↔
        (stripIsEmpty text = true ∨ ∃ stmts, parse text = some stmts ∧
          stmts.all stmtIsBoilerplate = true)) ∧
    ((∀ targets : List PyTarget,
        stmtIsBoilerplate (PyStmt.assign targets) = true) ∧
      stmtIsBoilerplate PyStmt.importStmt = true ∧
      stmtIsBoilerplate PyStmt.importFromStmt = true ∧
      (∀ s : String,
        stmtIsBoilerplate (PyStmt.exprStmt (PyExpr.constStr s)) = true) ∧
      stmtIsBoilerplate (PyStmt.exprStmt PyExpr.otherExpr) = false ∧
      stmtIsBoilerplate PyStmt.otherStmt = false) ∧
    (∀ (parse : PyParse) (blob : List Nat),
      blob.contains 0 = true ∨ utf8Decode blob = none →
        is_blob_semantically_empty parse blob = false) := by
  refine ⟨?_, ⟨fun _ => rfl, rfl, rfl, fun _ => rfl, rfl, rfl⟩, ?_⟩
  · intro parse text
    unfold is_text_semantically_empty
    by_cases hs : stripIsEmpty text = true
    · simp [hs]
    · rw [if_neg (by simpa using hs)]
      cases hp : parse text with
      | none =>
        simp [hs]
      | some stmts =>
        constructor
        · intro h
          exact Or.inr ⟨stmts, rfl, h⟩
        · rintro (hL | ⟨stmts', heq, hall⟩)
          · exact absurd hL hs
          · cases heq
            exact hall
  · intro parse blob h
    have htext : is_text_bytes blob = false := by
      unfold is_text_bytes
      rcases h with h0 | hdec
      · have hne : blob.isEmpty = false := by
          cases blob with
          | nil => simp [List.contains, List.elem_iff] at h0
          | cons b rest => rfl
        rw [if_neg (by simp [hne]), if_pos h0]
      · have hne : blob.isEmpty = false := by
          cases blob with
          | nil =>
            rw [show utf8Decode [] = some [] from rfl] at hdec
            cases hdec
          | cons b rest => rfl
        rw [if_neg (by simp [hne])]
        by_cases h0 : blob.contains 0 = true
        · rw [if_pos h0]
        · rw [if_neg (by simpa using h0), hdec]
          rfl
    unfold is_blob_semantically_empty
    simp [htext]

/-- C6 counterexample to the single-`__all__`-target rule: the program
classifies `"x = 5"` — one top-level assignment whose single `ast.Name`
target is `"x"`, not `"__all__"` — as semantically empty, because the
`Assign` branch of `core.is_text_semantically_empty` continues the loop
whether or not its `__all__` guard holds. -/
theorem claim_C6_counterexample :
    is_text_semantically_empty
      (fun s => if s = "x = 5" then
        some [PyStmt.assign [PyTarget.name "x"]] else none)
      "x = 5" = true ∧
    ("x" == "__all__") = false := by
  constructor
  · decide
  · decide

/-! ## Claim C8: the guarded GET against rate limiting -/

/-- C8 counterexample: a non-rate-limit, non-2xx response need not raise
an HTTP error — a `304` response is silently retried once and then
returned as a normal result (`requests.raise_for_status` only raises for
statuses 400-599), so "a non-rate-limit, non-2xx response raises an HTTP
error" is false as stated. -/
theorem claim_C8_counterexample :
    guardedGet 0 (fun _ => ⟨304, none, none⟩) =
      ⟨GetResult.ok ⟨304, none, none⟩, 2, []⟩ := by
  decide

/-- C8 (amended): a 403/429 response whose parsed wait is between 0 and
180 seconds causes exactly one sleep of that duration and exactly one
retry; a parsed wait above 180 seconds fails immediately with the
rate-limit-too-long error, with no sleep and no retry; and a
non-rate-limit response with status 400-599 raises an HTTP error for
that request at the first attempt.  (1xx/3xx responses are returned
without raising, per the counterexample.) -/
theorem claim_C8 :
    (∀ (now : Int) (responses : Nat → Resp) (w : Int),
      ((responses 0).status = 403 ∨ (responses 0).status = 429) →
      parse_rate_limit_wait_seconds now (responses 0) = some w →
      0 ≤ w → w ≤ MAX_WAIT_SECONDS →
      (guardedGet now responses).sleeps = [w] ∧
        (guardedGet now responses).gets = 2) ∧
    (∀ (now : Int) (responses : Nat → Resp) (w : Int),
      ((responses 0).status = 403 ∨ (responses 0).status = 429) →
      parse_rate_limit_wait_seconds now (responses 0) = some w →
      w > MAX_WAIT_SECONDS →
      guardedGet now responses = ⟨GetResult.rateLimitTooLong w, 1, []⟩) ∧
    (∀ (now : Int) (responses : Nat → Resp),
      ¬((responses 0).status = 403 ∨ (responses 0).status = 429) →
      400 ≤ (responses 0).status → (responses 0).status < 600 →
      guardedGet now responses =
        ⟨GetResult.httpError (responses 0).status, 1, []⟩) := by
  have hat : ∀ (r : Resp) (g : Nat) (s : List Int) (res : GetResult),
      (attemptTail r g s ⟨res, g, s⟩).sleeps = s ∧
        (attemptTail r g s ⟨res, g, s⟩).gets = g := by
    intro r g s res
    unfold attemptTail
    split_ifs <;> exact ⟨rfl, rfl⟩
  refine ⟨?_, ?_, ?_⟩
  · intro now responses w hrl hw h0 h180
    unfold guardedGet
    rw [if_pos hrl, hw]
    dsimp only
    rw [if_neg (by omega)]
    by_cases hc1 : (responses 1).status = 403 ∨ (responses 1).status = 429
    · rw [if_pos hc1]
      cases hp1 : parse_rate_limit_wait_seconds now (responses 1) with
      | some w1 =>
        dsimp only
        by_cases hw1 : w1 > MAX_WAIT_SECONDS
        · rw [if_pos hw1]
          exact ⟨rfl, rfl⟩
        · rw [if_neg hw1]
          exact hat (responses 1) 2 [w] (GetResult.ok (responses 1))
      | none =>
        dsimp only
        exact hat (responses 1) 2 [w] (GetResult.ok (responses 1))
    · rw [if_neg hc1]
      exact hat (responses 1) 2 [w] (GetResult.ok (responses 1))
  · intro now responses w hrl hw h180
    unfold guardedGet
    rw [if_pos hrl, hw]
    dsimp only
    rw [if_pos (by omega)]
  · intro now responses hrl h400 h600
    unfold guardedGet
    rw [if_neg hrl]
    unfold attemptTail
    rw [if_neg (by omega), if_pos (by omega)]

/-! ## Claim C10: a zero/negative/absent `max_files` is unlimited -/

/-- C10: constructing a `FileBudget` from `0`, a negative value or
`None` leaves `_remaining = None`: `spent()` is always false,
`available()` always true, `consume()` a no-op — and a run with such a
budget writes exactly what a run with no budget writes (a budget of zero
does not mean "emit nothing"). -/
theorem claim_C10 :
    (∀ z : Int, z ≤ 0 → FileBudget.make (some z) = none) ∧
    FileBudget.make none = none ∧
    FileBudget.spent none = false ∧
    FileBudget.available none = true ∧
    FileBudget.consume none = none ∧
    (∀ (env : Env) (fuel : Nat) (roots : List (List String)),
      (run env fuel roots (some (FileBudget.make (some 0)))).out =
        (run env fuel roots none).out) := by
  have hmk : ∀ z : Int, z ≤ 0 → FileBudget.make (some z) = none := by
    intro z hz
    unfold FileBudget.make
    dsimp only
    rw [if_neg (by omega)]
  refine ⟨hmk, rfl, rfl, rfl, rfl, ?_⟩
  intro env fuel roots
  exact (runRoots_unl env fuel roots
    ⟨[], [], some (FileBudget.make (some 0)), []⟩ ⟨[], [], none, []⟩
    ⟨rfl, rfl, rfl, by rw [hmk 0 le_rfl], rfl⟩).2.1

theorem claim_C10_witness :
    ((-3 : Int) ≤ 0) ∧ FileBudget.make (some (-3)) = none :=
  ⟨by decide, claim_C10.1 (-3) (by decide)⟩

theorem claim_C6_witness :
    (([72, 0] : List Nat).contains 0 = true ∨ utf8Decode [72, 0] = none) ∧
      is_blob_semantically_empty (fun _ => none) [72, 0] = false :=
  ⟨Or.inl (by decide), claim_C6.2.2 (fun _ => none) [72, 0] (Or.inl (by decide))⟩

/-- A concrete rate-limited response sequence for exercising the guarded
GET. -/
def resp429 : Nat → Resp := fun _ => ⟨429, some 99999, none⟩

/-! ## Glob matcher characterizations (toward claim C5) -/

/-- Characters that carry no meaning for the glob matcher. -/
def plainChars (l : List Char) : Prop :=
  ∀ c ∈ l, c ≠ '*' ∧ c ≠ '?' ∧ c ≠ '['

theorem is_glob_false_plain (e : String) (h : is_glob e = false) :
    plainChars e.toList := by
  intro c hc
  unfold is_glob at h
  rw [List.any_eq_false] at h
  have := h c hc
  simp only [Bool.or_eq_true, decide_eq_true_eq] at this
  push_neg at this
  obtain ⟨⟨⟨⟨h1, h2⟩, h3⟩, h4⟩, h5⟩ := this
  exact ⟨h1, h2, h4⟩

theorem globMatch_lit (lit : List Char) (h : plainChars lit) :
    ∀ s, globMatch lit s = true ↔ s = lit := by
  induction lit with
  | nil =>
    intro s
    rw [globMatch.eq_1]
    cases s <;> simp
  | cons c cs ih =>
    intro s
    obtain ⟨h1, h2, h3⟩ := h c (List.mem_cons_self c cs)
    have hrest : plainChars cs := fun c' hc' => h c' (List.mem_cons_of_mem _ hc')
    cases s with
    | nil =>
      rw [globMatch.eq_9 c cs h1 h2 h3]
      simp
    | cons c' s' =>
      rw [globMatch.eq_8 c cs c' s' h1 h2 h3]
      simp only [Bool.and_eq_true, decide_eq_true_eq]
      rw [ih hrest s']
      constructor
      · rintro ⟨rfl, rfl⟩
        rfl
      · intro heq
        cases heq
        exact ⟨rfl, rfl⟩

theorem globMatch_star (ps : List Char) :
    ∀ s, globMatch ('*' :: ps) s = true ↔
      ∃ a b, s = a ++ b ∧ globMatch ps b = true := by
  intro s
  induction s with
  | nil =>
    rw [globMatch.eq_2]
    simp only [Bool.or_false]
    constructor
    · intro h
      exact ⟨[], [], rfl, h⟩
    · rintro ⟨a, b, hab, hm⟩
      obtain ⟨ha, hb⟩ := List.append_eq_nil.mp hab.symm
      subst ha; subst hb
      exact hm
  | cons c rest ih =>
    rw [globMatch.eq_3]
    simp only [Bool.or_eq_true]
    constructor
    · rintro (hm | hm)
      · exact ⟨[], c :: rest, rfl, hm⟩
      · obtain ⟨a, b, hab, hb⟩ := ih.mp hm
        exact ⟨c :: a, b, by rw [List.cons_append, ← hab], hb⟩
    · rintro ⟨a, b, hab, hm⟩
      cases a with
      | nil =>
        left
        rw [List.nil_append] at hab
        rw [hab]
        exact hm
      | cons a0 as =>
        right
        apply ih.mpr
        rw [List.cons_append] at hab
        refine ⟨as, b, ?_, hm⟩
        exact (List.cons.injEq .. ▸ hab).2

theorem globMatch_lit_star (lit : List Char) (h : plainChars lit) :
    ∀ s, globMatch (lit ++ ['*']) s = true ↔ lit <+: s := by
  induction lit with
  | nil =>
    intro s
    rw [List.nil_append]
    constructor
    · intro _
      exact List.nil_prefix
    · intro _
      apply (globMatch_star [] s).mpr
      exact ⟨s, [], by simp, by rw [globMatch.eq_1]; rfl⟩
  | cons c cs ih =>
    intro s
    obtain ⟨h1, h2, h3⟩ := h c (List.mem_cons_self c cs)
    have hrest : plainChars cs := fun c' hc' => h c' (List.mem_cons_of_mem _ hc')
    cases s with
    | nil =>
      rw [List.cons_append, globMatch.eq_9 c (cs ++ ['*']) h1 h2 h3]
      simp
    | cons c' s' =>
      rw [List.cons_append, globMatch.eq_8 c (cs ++ ['*']) c' s' h1 h2 h3]
      simp only [Bool.and_eq_true, decide_eq_true_eq]
      rw [ih hrest s', List.cons_prefix_cons]

theorem fnm_suffix (e x : String) (h : is_glob e = false) :
    fnmatch x ("*" ++ e) = true ↔ e.toList <:+ x.toList := by
  unfold fnmatch
  have htl : ("*" ++ e).toList = '*' :: e.toList := by
    show ("*" ++ e).data = '*' :: e.data
    rw [String.data_append]
    rfl
  rw [htl, globMatch_star]
  constructor
  · rintro ⟨a, b, hab, hm⟩
    rw [(globMatch_lit e.toList (is_glob_false_plain e h) b).mp hm] at hab
    exact ⟨a, hab.symm⟩
  · rintro ⟨t, ht⟩
    exact ⟨t, e.toList, ht.symm,
      (globMatch_lit e.toList (is_glob_false_plain e h) _).mpr rfl⟩

theorem fnm_infixOf (e x : String) (h : is_glob e = false) :
    fnmatch x ("*" ++ e ++ "*") = true ↔ e.toList <:+: x.toList := by
  unfold fnmatch
  have htl : ("*" ++ e ++ "*").toList = '*' :: (e.toList ++ ['*']) := by
    show ("*" ++ e ++ "*").data = '*' :: (e.data ++ ['*'])
    rw [String.data_append, String.data_append]
    rfl
  rw [htl, globMatch_star]
  constructor
  · rintro ⟨a, b, hab, hm⟩
    obtain ⟨t, ht⟩ := (globMatch_lit_star e.toList
      (is_glob_false_plain e h) b).mp hm
    exact ⟨a, t, by rw [List.append_assoc, ht, ← hab]⟩
  · rintro ⟨u, t, hut⟩
    refine ⟨u, e.toList ++ t, by rw [← hut, List.append_assoc], ?_⟩
    exact (globMatch_lit_star e.toList (is_glob_false_plain e h) _).mpr
      ⟨t, rfl⟩

/-! ## Characterizing `is_excluded` on glob-free inputs (claim C5) -/

theorem prefix_takeWhile (q : Char → Bool) :
    ∀ (p l : List Char), p <+: l → (∀ c ∈ p, q c = true) →
      p <+: l.takeWhile q := by
  intro p
  induction p with
  | nil => intro l _ _; exact List.nil_prefix
  | cons c cs ih =>
    intro l hp hq
    cases l with
    | nil => exact absurd (List.eq_nil_of_prefix_nil hp) (by simp)
    | cons d ds =>
      rw [List.cons_prefix_cons] at hp
      obtain ⟨rfl, hp'⟩ := hp
      rw [List.takeWhile_cons, hq c (List.mem_cons_self c cs)]
      rw [if_pos rfl, List.cons_prefix_cons]
      exact ⟨rfl, ih ds hp' fun c' hc' => hq c' (List.mem_cons_of_mem _ hc')⟩

theorem lastComponent_suffix (s : String) :
    (lastComponent s).toList <:+ s.toList := by
  have h1 : (s.toList.reverse.takeWhile fun c => c ≠ '/') <+: s.toList.reverse :=
    List.takeWhile_prefix _
  show (s.toList.reverse.takeWhile fun c => c ≠ '/').reverse <:+ s.toList
  rw [← List.reverse_prefix]
  simpa using h1

theorem suffix_lastComponent (e s : String) (hsl : ('/' : Char) ∉ e.toList)
    (h : e.toList <:+ s.toList) : e.toList <:+ (lastComponent s).toList := by
  have h1 : e.toList.reverse <+: s.toList.reverse := by
    rw [List.reverse_prefix]
    exact h
  have h2 : e.toList.reverse <+:
      (s.toList.reverse.takeWhile fun c => c ≠ '/') := by
    apply prefix_takeWhile _ _ _ h1
    intro c hc
    rw [List.mem_reverse] at hc
    simp only [decide_eq_true_eq]
    intro hceq
    exact hsl (hceq ▸ hc)
  show e.toList <:+ (s.toList.reverse.takeWhile fun c => c ≠ '/').reverse
  rw [← List.reverse_prefix]
  simpa using h2

theorem pyStem_front (n : String) : (pyStem n).toList <+: n.toList := by
  unfold pyStem
  rcases hdot : lastDotIdx n.toList with _ | i
  · exact List.prefix_rfl
  · dsimp only
    split_ifs
    · exact List.take_prefix i n.toList
    · exact List.prefix_rfl

theorem is_extension_no_slash (e : String) (h : is_extension e = true) :
    ('/' : Char) ∉ e.toList := by
  unfold is_extension at h
  rw [Bool.and_eq_true] at h
  intro hmem
  have := h.2
  rw [Bool.not_eq_true'] at this
  have hc : e.toList.contains '/' = true := by
    simpa [List.contains, List.elem_iff] using hmem
  rw [this] at hc
  cases hc

/-- Reduction of `is_excluded` over a single plain-string rule, both
sides glob-free: the rule and entry take the literal branches. -/
theorem is_excluded_single (e s : String) (hge : is_glob e = false)
    (hgs : is_glob s = false) :
    is_excluded s [Exclusion.str e] =
      (if (lastComponent s == e || s == e || pyStem (lastComponent s) == e ||
            (is_extension e && endsStr (lastComponent s) e)) = true then true
       else
        (fnmatch (lastComponent s)
            (if is_extension e then "*" ++ e else "*" ++ e ++ "*") ||
          fnmatch s (if is_extension e then "*" ++ e else "*" ++ e ++ "*") ||
          fnmatch (pyStem (lastComponent s))
            (if is_extension e then "*" ++ e else "*" ++ e ++ "*"))) := by
  unfold is_excluded
  simp only [List.any_cons, List.any_nil, Bool.or_false, hge, hgs]
  rfl

/-- On glob-free inputs, a non-extension-shaped literal rule excludes a
path exactly when the literal occurs in it as a substring anywhere. -/
theorem is_excluded_substring (e s : String) (hge : is_glob e = false)
    (hgs : is_glob s = false) (hee : is_extension e = false) :
    (is_excluded s [Exclusion.str e] = true ↔ e.toList <:+: s.toList) := by
  have hnameinf : (lastComponent s).toList <:+: s.toList :=
    (lastComponent_suffix s).isInfix
  have hsteminf : (pyStem (lastComponent s)).toList <:+: s.toList :=
    List.IsInfix.trans (pyStem_front (lastComponent s)).isInfix hnameinf
  rw [is_excluded_single e s hge hgs]
  simp only [hee, Bool.false_and, Bool.or_false, Bool.false_eq_true, if_false]
  by_cases hc2 : (lastComponent s == e || s == e ||
      pyStem (lastComponent s) == e) = true
  · rw [if_pos hc2]
    simp only [Bool.or_eq_true, beq_iff_eq] at hc2
    constructor
    · intro _
      rcases hc2 with (hn | hs') | hst
      · exact hn ▸ hnameinf
      · exact hs' ▸ List.infix_rfl
      · exact hst ▸ hsteminf
    · intro _
      rfl
  · rw [if_neg hc2]
    simp only [Bool.or_eq_true, fnm_infixOf e (lastComponent s) hge,
      fnm_infixOf e s hge, fnm_infixOf e (pyStem (lastComponent s)) hge]
    constructor
    · rintro ((h | h) | h)
      · exact List.IsInfix.trans h hnameinf
      · exact h
      · exact List.IsInfix.trans h hsteminf
    · intro h
      exact Or.inl (Or.inr h)

/-- On glob-free inputs, an extension-shaped literal rule excludes a path
exactly when the literal is a suffix of the path's base name or of its
stem. -/
theorem is_excluded_exten (e s : String) (hge : is_glob e = false)
    (hgs : is_glob s = false) (hee : is_extension e = true) :
    (is_excluded s [Exclusion.str e] = true ↔
      (e.toList <:+ (lastComponent s).toList ∨
        e.toList <:+ (pyStem (lastComponent s)).toList)) := by
  have hslash : ('/' : Char) ∉ e.toList := is_extension_no_slash e hee
  have hends : ∀ x : String, endsStr x e = true ↔ e.toList <:+ x.toList := by
    intro x
    unfold endsStr
    exact List.isSuffixOf_iff_suffix
  rw [is_excluded_single e s hge hgs]
  simp only [hee, Bool.true_and, if_true]
  by_cases hc2 : (lastComponent s == e || s == e ||
      pyStem (lastComponent s) == e || endsStr (lastComponent s) e) = true
  · rw [if_pos hc2]
    simp only [Bool.or_eq_true, beq_iff_eq] at hc2
    constructor
    · intro _
      rcases hc2 with ((hn | hs') | hst) | hend
      · exact Or.inl (hn ▸ List.suffix_refl _)
      · refine Or.inl (suffix_lastComponent e s hslash ?_)
        exact hs' ▸ List.suffix_refl _
      · exact Or.inr (hst ▸ List.suffix_refl _)
      · exact Or.inl ((hends _).mp hend)
    · intro _
      rfl
  · rw [if_neg hc2]
    simp only [Bool.or_eq_true, fnm_suffix e (lastComponent s) hge,
      fnm_suffix e s hge, fnm_suffix e (pyStem (lastComponent s)) hge]
    constructor
    · rintro ((h | h) | h)
      · exact Or.inl h
      · exact Or.inl (suffix_lastComponent e s hslash h)
      · exact Or.inr h
    · rintro (h | h)
      · exact Or.inl (Or.inl h)
      · exact Or.inr h

/-- Any rule of the exclusion list that matches on its own makes the
whole list match (`for` loop with early `return True`). -/
theorem is_excluded_of_mem (ex : Exclusion) (rules : List Exclusion)
    (s : String) (hmem : ex ∈ rules)
    (h : is_excluded s [ex] = true) : is_excluded s rules = true := by
  unfold is_excluded at h ⊢
  simp only [List.any_cons, List.any_nil, Bool.or_false] at h
  rw [List.any_eq_true]
  exact ⟨ex, hmem, h⟩

/-- Reduction of `is_excluded` over a single string rule when the entry
path or the rule is glob-flavored: the matching switches to bare
`fnmatch` of the rule against name, path and stem. -/
theorem is_excluded_single_glob (e s : String)
    (hg : (is_glob s || is_glob e) = true) :
    is_excluded s [Exclusion.str e] =
      (fnmatch (lastComponent s) e || fnmatch s e ||
        fnmatch (pyStem (lastComponent s)) e) := by
  unfold is_excluded
  simp only [List.any_cons, List.any_nil, Bool.or_false, hg, if_true]

/-- C5 (amended): on glob-free inputs, a plain literal rule that is not
extension-shaped excludes a path exactly when the literal occurs in it as
a substring anywhere; an extension-shaped literal (leading `.`, no `/`)
excludes a path exactly when it is a suffix of the path's base name or of
the base name's stem — not only of the base name; and a rule that matches
alone makes any list containing it match.  When the entry path itself
contains a glob metacharacter, matching switches to bare glob semantics
and the substring reading no longer applies. -/
theorem claim_C5 (e s : String) (hge : is_glob e = false)
    (hgs : is_glob s = false) :
    (is_extension e = false →
      (is_excluded s [Exclusion.str e] = true ↔ e.toList <:+: s.toList)) ∧
    (is_extension e = true →
      (is_excluded s [Exclusion.str e] = true ↔
        (e.toList <:+ (lastComponent s).toList ∨
          e.toList <:+ (pyStem (lastComponent s)).toList))) ∧
    (∀ rules : List Exclusion, Exclusion.str e ∈ rules →
      is_excluded s [Exclusion.str e] = true →
      is_excluded s rules = true) :=
  ⟨fun h => is_excluded_substring e s hge hgs h,
   fun h => is_excluded_exten e s hge hgs h,
   fun rules hm h => is_excluded_of_mem (Exclusion.str e) rules s hm h⟩

/-- C5 counterexamples to the literal claim: the rule `"o/b"` does NOT
exclude the path `"foo/bar[1]"` although `"o/b"` is a substring of it
(the `[` in the path switches matching to glob semantics), and the
extension rule `".py"` excludes `"foo.py.txt"` by stem suffix although
`".py"` is not a suffix of the base name. -/
theorem claim_C5_counterexample :
    "o/b".toList <:+: "foo/bar[1]".toList ∧
    is_excluded "foo/bar[1]" [Exclusion.str "o/b"] = false ∧
    is_excluded "foo.py.txt" [Exclusion.str ".py"] = true ∧
    endsStr (lastComponent "foo.py.txt") ".py" = false := by
  refine ⟨by decide, ?_, ?_, by decide⟩
  · rw [is_excluded_single_glob "o/b" "foo/bar[1]" (by decide)]
    rw [show lastComponent "foo/bar[1]" = "bar[1]" from by decide]
    rw [show pyStem "bar[1]" = "bar[1]" from by decide]
    simp +decide [fnmatch, globMatch]
  · rw [(is_excluded_exten ".py" "foo.py.txt" (by decide) (by decide)
      (by decide)).2]
    rw [show lastComponent "foo.py.txt" = "foo.py.txt" from by decide]
    rw [show pyStem "foo.py.txt" = "foo.py" from by decide]
    exact Or.inr (by decide)

theorem claim_C5_witness :
    is_glob "o/b" = false ∧ is_glob "foo/bar/baz" = false ∧
    is_extension "o/b" = false ∧
    (is_excluded "foo/bar/baz" [Exclusion.str "o/b"] = true ↔
      "o/b".toList <:+: "foo/bar/baz".toList) :=
  ⟨by decide, by decide, by decide,
    (claim_C5 "o/b" "foo/bar/baz" (by decide) (by decide)).1 (by decide)⟩

theorem claim_C8_witness :
    ((resp429 0).status = 403 ∨ (resp429 0).status = 429) ∧
      parse_rate_limit_wait_seconds 0 (resp429 0) = some 99999 ∧
      (99999 : Int) > MAX_WAIT_SECONDS ∧
      guardedGet 0 resp429 = ⟨GetResult.rateLimitTooLong 99999, 1, []⟩ :=
  ⟨Or.inr rfl, rfl, by decide,
    claim_C8.2.1 0 resp429 99999 (Or.inr rfl) rfl (by decide)⟩

end Prin
